import Mathlib

set_option maxRecDepth 8000
set_option maxHeartbeats 1000000
set_option linter.unusedSectionVars false

/-!
Verification development for the pok3r mental-poker protocol core
(`src/main.rs`).  The cryptographic protocol logic of `main.rs` is embedded
shallowly:

* The scalar field `F` of the pairing curve is kept abstract (`[Field F]`);
  concrete witnesses instantiate it with `ZMod 193`, a prime field that has a
  multiplicative subgroup of order 64, as the protocol requires.
* The groups G₁, G₂, Gₜ of the BLS-family curve are prime-order cyclic groups;
  they are embedded in exponent form: a group element `g^a` is represented by
  its discrete logarithm `a : F`, group addition becomes field addition,
  scalar multiplication becomes field multiplication and the pairing
  `e(g₁^a, g₂^b) = gₜ^{a·b}` becomes field multiplication.  This is faithful:
  every group element of a prime-order cyclic group is of this form and all
  operations `main.rs` performs factor through this interface.
* Polynomials are little-endian coefficient lists (`List F`), mirroring
  arkworks' `DensePolynomial` coefficient vectors.
* The multi-party evaluator is modelled by its ideal functionality for honest
  parties (the setting of the claims): a shared wire holds its reconstructed
  logical value, `mult` multiplies, `inv` inverts (aborting on zero),
  `output_wire` reveals the value, `output_wire_in_exponent` reveals the
  exponent-form element, commitment sums across parties reconstruct the
  commitment of the logical polynomial.  (`evaluator.rs` is not part of the
  sources; the model follows the spec's contracts for these operations.)
* Rust panics (out-of-bounds indexing, `unwrap` on `None`, failed asserts,
  aborts of the MPC layer) are modelled by `Option`, with `none` for a panic.
-/

namespace Pok3r

variable {F : Type} [Field F] [DecidableEq F]

/-! ### Polynomials as little-endian coefficient lists -/

/-- Horner evaluation of a little-endian coefficient list. -/
def evalL (l : List F) (x : F) : F := l.foldr (fun a acc => a + x * acc) 0

@[simp] lemma evalL_nil (x : F) : evalL ([] : List F) x = 0 := rfl

@[simp] lemma evalL_cons (a : F) (l : List F) (x : F) :
    evalL (a :: l) x = a + x * evalL l x := rfl

/-- Coefficient-wise sum of two polynomials. -/
def addL : List F → List F → List F
  | [], m => m
  | l, [] => l
  | a :: l, b :: m => (a + b) :: addL l m

@[simp] lemma addL_nil_left (m : List F) : addL [] m = m := by cases m <;> rfl

@[simp] lemma addL_nil_right (l : List F) : addL l [] = l := by cases l <;> rfl

@[simp] lemma addL_cons (a b : F) (l m : List F) :
    addL (a :: l) (b :: m) = (a + b) :: addL l m := rfl

lemma evalL_addL (l : List F) : ∀ (m : List F) (x : F),
    evalL (addL l m) x = evalL l x + evalL m x := by
  induction l with
  | nil => intro m x; simp
  | cons a l ih =>
    intro m x
    cases m with
    | nil => simp
    | cons b m => simp [ih]; ring

lemma length_addL (l : List F) : ∀ m : List F,
    (addL l m).length = max l.length m.length := by
  induction l with
  | nil => intro m; simp
  | cons a l ih =>
    intro m
    cases m with
    | nil => simp
    | cons b m => simp [ih, Nat.succ_max_succ]

/-- Coefficient-wise difference of two polynomials. -/
def subL : List F → List F → List F
  | l, [] => l
  | [], m => m.map Neg.neg
  | a :: l, b :: m => (a - b) :: subL l m

@[simp] lemma subL_nil_right (l : List F) : subL l [] = l := by cases l <;> rfl

@[simp] lemma subL_nil_left (m : List F) : subL [] m = m.map Neg.neg := by
  cases m <;> rfl

@[simp] lemma subL_cons (a b : F) (l m : List F) :
    subL (a :: l) (b :: m) = (a - b) :: subL l m := rfl

lemma evalL_map_neg (m : List F) (x : F) :
    evalL (m.map Neg.neg) x = - evalL m x := by
  induction m with
  | nil => simp
  | cons b m ih => simp [ih]; ring

lemma evalL_subL (l : List F) : ∀ (m : List F) (x : F),
    evalL (subL l m) x = evalL l x - evalL m x := by
  induction l with
  | nil => intro m x; simp [evalL_map_neg]
  | cons a l ih =>
    intro m x
    cases m with
    | nil => simp
    | cons b m => simp [ih]; ring

lemma length_subL (l : List F) : ∀ m : List F,
    (subL l m).length = max l.length m.length := by
  induction l with
  | nil => intro m; cases m <;> simp
  | cons a l ih =>
    intro m
    cases m with
    | nil => simp
    | cons b m => simp [ih, Nat.succ_max_succ]

/-- Multiplication of a polynomial by a scalar. -/
def smulL (c : F) (l : List F) : List F := l.map (fun a => c * a)

@[simp] lemma smulL_nil (c : F) : smulL c ([] : List F) = [] := rfl

@[simp] lemma smulL_cons (c a : F) (l : List F) :
    smulL c (a :: l) = c * a :: smulL c l := rfl

lemma evalL_smulL (c : F) (l : List F) (x : F) :
    evalL (smulL c l) x = c * evalL l x := by
  induction l with
  | nil => simp
  | cons a l ih => simp [ih]; ring

@[simp] lemma length_smulL (c : F) (l : List F) :
    (smulL c l).length = l.length := by simp [smulL]

/-- Product of two coefficient lists (schoolbook convolution). -/
def mulL : List F → List F → List F
  | [], _ => []
  | a :: l, m => addL (smulL a m) (0 :: mulL l m)

lemma evalL_mulL (l : List F) : ∀ (m : List F) (x : F),
    evalL (mulL l m) x = evalL l x * evalL m x := by
  induction l with
  | nil => intro m x; simp [mulL]
  | cons a l ih =>
    intro m x
    simp [mulL, evalL_addL, evalL_smulL, ih]
    ring

lemma length_mulL (l : List F) : ∀ m : List F,
    (mulL l m).length ≤ l.length + m.length := by
  induction l with
  | nil => intro m; simp [mulL]
  | cons a l ih =>
    intro m
    simp only [mulL, length_addL, length_smulL, List.length_cons]
    have := ih m
    omega

lemma evalL_append (l : List F) : ∀ (m : List F) (x : F),
    evalL (l ++ m) x = evalL l x + x ^ l.length * evalL m x := by
  induction l with
  | nil => intro m x; simp
  | cons a l ih =>
    intro m x
    simp [ih, pow_succ]
    ring

/-! ### Synthetic division by a linear factor (X - z)

The KZG opening procedure `open(f, z) = commit((f - f(z)) / (X - z))`
(spec 4.A) divides by the linear polynomial `X - z`; `qr l z` returns the
quotient coefficients and the remainder of that division. -/

def qr : List F → F → List F × F
  | [], _ => ([], 0)
  | [a], _ => ([], a)
  | a :: b :: t, z =>
    let p := qr (b :: t) z
    (p.2 :: p.1, a + z * p.2)

@[simp] lemma qr_nil (z : F) : qr ([] : List F) z = ([], 0) := rfl

@[simp] lemma qr_single (a z : F) : qr [a] z = ([], a) := rfl

@[simp] lemma qr_cons₂ (a b : F) (t : List F) (z : F) :
    qr (a :: b :: t) z = ((qr (b :: t) z).2 :: (qr (b :: t) z).1,
      a + z * (qr (b :: t) z).2) := rfl

lemma length_qr (l : List F) (z : F) : (qr l z).1.length = l.length - 1 := by
  induction l with
  | nil => rfl
  | cons a l ih =>
    cases l with
    | nil => rfl
    | cons b t => simp [ih]

lemma qr_eval (l : List F) (z x : F) :
    evalL l x = evalL (qr l z).1 x * (x - z) + (qr l z).2 := by
  induction l with
  | nil => simp
  | cons a l ih =>
    cases l with
    | nil => simp
    | cons b t =>
      simp only [qr_cons₂, evalL_cons] at ih ⊢
      rw [ih]
      ring

lemma qr_snd (l : List F) (z : F) : (qr l z).2 = evalL l z := by
  have h := qr_eval l z z
  simpa using h.symm

/-! ### Geometric coefficient lists and Lagrange bases over H -/

/-- The list `[c^(n-1), c^(n-2), ..., c, 1]` (little-endian coefficients of
    the polynomial `(X^n - c^n) / (X - c)`). -/
def geomList (c : F) : ℕ → List F
  | 0 => []
  | n + 1 => c ^ n :: geomList c n

@[simp] lemma geomList_zero (c : F) : geomList c 0 = [] := rfl

@[simp] lemma geomList_succ (c : F) (n : ℕ) :
    geomList c (n + 1) = c ^ n :: geomList c n := rfl

@[simp] lemma length_geomList (c : F) (n : ℕ) : (geomList c n).length = n := by
  induction n with
  | zero => rfl
  | succ n ih => simp [ih]

lemma evalL_geomList_mul (c : F) (n : ℕ) (x : F) :
    evalL (geomList c n) x * (x - c) = x ^ n - c ^ n := by
  induction n with
  | zero => simp
  | succ n ih =>
    simp only [geomList_succ, evalL_cons]
    have : (c ^ n + x * evalL (geomList c n) x) * (x - c)
        = x * (evalL (geomList c n) x * (x - c)) + c ^ n * (x - c) := by ring
    rw [this, ih, pow_succ, pow_succ]
    ring

lemma evalL_geomList_self (c : F) (n : ℕ) :
    evalL (geomList c (n + 1)) c = (n + 1 : ℕ) * c ^ n := by
  induction n with
  | zero => simp
  | succ n ih =>
    simp only [geomList_succ, evalL_cons] at ih ⊢
    rw [ih]
    push_cast
    ring

/-! ### Coefficient scaling for f(X) ↦ f(X/ω)

Spec 4.B: `poly_domain_div_ω(t)` multiplies coefficient i by ω⁻ⁱ
(`utils.rs` is not among the sources; modelled from the spec). -/

def scalePow (c : F) : F → List F → List F
  | _, [] => []
  | cur, a :: l => cur * a :: scalePow c (cur * c) l

lemma evalL_scalePow (c : F) (l : List F) : ∀ (cur x : F),
    evalL (scalePow c cur l) x = cur * evalL l (c * x) := by
  induction l with
  | nil => intro cur x; simp [scalePow]
  | cons a l ih =>
    intro cur x
    simp [scalePow, ih]
    ring

/-- Modelled from the spec: `poly_domain_div_ω` returns the coefficient list
    of `t(X/ω)`, i.e. coefficient i is multiplied by `ω⁻ⁱ`. -/
def domainDivOmega (ω : F) (l : List F) : List F := scalePow ω⁻¹ 1 l

lemma evalL_domainDivOmega (ω : F) (l : List F) (x : F) :
    evalL (domainDivOmega ω l) x = evalL l (ω⁻¹ * x) := by
  simp [domainDivOmega, evalL_scalePow]

lemma length_scalePow (c : F) (l : List F) : ∀ cur : F,
    (scalePow c cur l).length = l.length := by
  induction l with
  | nil => intro cur; rfl
  | cons a l ih => intro cur; simp [scalePow, ih]

@[simp] lemma length_domainDivOmega (ω : F) (l : List F) :
    (domainDivOmega ω l).length = l.length := length_scalePow _ _ _

/-! ### Primitive 64-th roots of unity -/

/-- The generator returned by `utils::multiplicative_subgroup_of_size(64)`:
    an element of multiplicative order exactly 64 (spec 4.B). -/
def primRoot64 (ω : F) : Prop := ω ^ 64 = 1 ∧ ∀ k < 64, 0 < k → ω ^ k ≠ 1

instance (ω : F) : Decidable (primRoot64 ω) := by
  unfold primRoot64; infer_instance

lemma primRoot64.ne_zero {ω : F} (h : primRoot64 ω) : ω ≠ 0 := by
  intro h0
  have : (0 : F) ^ 64 = 1 := by rw [← h0]; exact h.1
  simp [zero_pow] at this

lemma primRoot64.pow_inj {ω : F} (h : primRoot64 ω) :
    ∀ {i j : ℕ}, i < 64 → j < 64 → ω ^ i = ω ^ j → i = j := by
  have key : ∀ {i j : ℕ}, i ≤ j → j < 64 → ω ^ i = ω ^ j → i = j := by
    intro i j hij hj he
    have hsplit : ω ^ j = ω ^ i * ω ^ (j - i) := by
      rw [← pow_add]
      congr 1
      omega
    have hωi : ω ^ i ≠ 0 := pow_ne_zero _ h.ne_zero
    have hone : ω ^ (j - i) = 1 := by
      have h1 : ω ^ i * ω ^ (j - i) = ω ^ i * 1 := by
        rw [mul_one, ← hsplit, he]
      exact mul_left_cancel₀ hωi h1
    by_contra hne
    exact h.2 (j - i) (by omega) (by omega) hone
  intro i j hi hj he
  rcases le_total i j with hle | hle
  · exact key hle hj he
  · exact (key hle hi he.symm).symm

/-- The evaluation points `(ω⁰, …, ω⁶³)` of the domain H. -/
def rootsList (ω : F) : List F := (List.range 64).map (fun i => ω ^ i)

@[simp] lemma length_rootsList (ω : F) : (rootsList ω).length = 64 := by
  simp [rootsList]

lemma rootsList_nodup {ω : F} (h : primRoot64 ω) : (rootsList ω).Nodup := by
  refine List.Nodup.map_on ?_ (List.nodup_range 64)
  intro i hi j hj he
  exact h.pow_inj (List.mem_range.mp hi) (List.mem_range.mp hj) he

/-! ### A polynomial of degree < n vanishing at n distinct points is zero -/

lemma vanish_of_roots :
    ∀ (pts : List F) (l : List F), l.length ≤ pts.length →
      pts.Pairwise (fun a b => a ≠ b) → (∀ z ∈ pts, evalL l z = 0) →
      ∀ x, evalL l x = 0 := by
  intro pts
  induction pts with
  | nil =>
    intro l hlen _ _ x
    have : l = [] := List.eq_nil_of_length_eq_zero (Nat.le_zero.mp hlen)
    simp [this]
  | cons z pts ih =>
    intro l hlen hpw hroots x
    rcases List.pairwise_cons.mp hpw with ⟨hz, hpw'⟩
    have hlz : evalL l z = 0 := hroots z (List.mem_cons_self _ _)
    have hq : ∀ p ∈ pts, evalL (qr l z).1 p = 0 := by
      intro p hp
      have h0 : evalL l p = 0 := hroots p (List.mem_cons_of_mem _ hp)
      rw [qr_eval l z p, qr_snd, hlz, add_zero] at h0
      have hpz : p - z ≠ 0 := sub_ne_zero.mpr (Ne.symm (hz p hp))
      exact (mul_eq_zero.mp h0).resolve_right hpz
    have hqlen : (qr l z).1.length ≤ pts.length := by
      rw [length_qr]
      simp at hlen
      omega
    have hq0 := ih (qr l z).1 hqlen hpw' hq
    rw [qr_eval l z x, qr_snd, hlz, hq0 x, zero_mul, add_zero]

/-- Two polynomials of degree < 64 agreeing on all of H agree everywhere. -/
lemma agree_of_nodes {ω : F} (h : primRoot64 ω) (l m : List F)
    (hl : l.length ≤ 64) (hm : m.length ≤ 64)
    (hnodes : ∀ j < 64, evalL l (ω ^ j) = evalL m (ω ^ j)) :
    ∀ x, evalL l x = evalL m x := by
  intro x
  have hz : ∀ z ∈ rootsList ω, evalL (subL l m) z = 0 := by
    intro z hzm
    rcases List.mem_map.mp hzm with ⟨j, hj, rfl⟩
    rw [evalL_subL, hnodes j (List.mem_range.mp hj), sub_self]
  have hlen : (subL l m).length ≤ (rootsList ω).length := by
    rw [length_subL, length_rootsList]
    omega
  have := vanish_of_roots (rootsList ω) (subL l m) hlen (rootsList_nodup h) hz x
  rw [evalL_subL] at this
  exact sub_eq_zero.mp this

/-! ### Interpolation over H

`utils::interpolate_poly_over_mult_subgroup` is not among the sources;
modelled from the spec (4.B): it returns the unique polynomial of degree < 64
taking the given values on `ω⁰ … ω⁶³`.  The model uses the closed Lagrange
form `L_i(X) = (vᵢ·ωⁱ/64) · (X⁶⁴-1)/(X-ωⁱ)`, whose node values are proved
below (`evalL_interp_node`), which pins the construction to the spec's
characterisation. -/

def lagBasis (ω : F) (i : ℕ) : List F := geomList (ω ^ i) 64

def interp (ω : F) (vs : List F) : List F :=
  smulL (64 : F)⁻¹
    ((List.range 64).foldr
      (fun i acc => addL (smulL (vs.getD i 0 * ω ^ i) (lagBasis ω i)) acc) [])

lemma evalL_foldr_addL (ts : List ℕ) (f : ℕ → List F) (x : F) :
    evalL (ts.foldr (fun i acc => addL (f i) acc) []) x
      = (ts.map (fun i => evalL (f i) x)).sum := by
  induction ts with
  | nil => simp
  | cons a ts ih => simp [evalL_addL, ih]

lemma length_foldr_addL_le (ts : List ℕ) (f : ℕ → List F) (n : ℕ)
    (h : ∀ i ∈ ts, (f i).length ≤ n) :
    (ts.foldr (fun i acc => addL (f i) acc) []).length ≤ n := by
  induction ts with
  | nil => simp
  | cons a ts ih =>
    simp only [List.foldr_cons, length_addL, max_le_iff]
    exact ⟨h a (List.mem_cons_self _ _),
      ih (fun i hi => h i (List.mem_cons_of_mem _ hi))⟩

lemma length_interp_le (ω : F) (vs : List F) : (interp ω vs).length ≤ 64 := by
  unfold interp
  rw [length_smulL]
  exact length_foldr_addL_le _ _ 64 (by intro i _; simp [lagBasis])

lemma map_sum_eq_single (l : List ℕ) (f : ℕ → F) (j : ℕ) (hj : j ∈ l)
    (hnd : l.Nodup) (hz : ∀ i ∈ l, i ≠ j → f i = 0) :
    (l.map f).sum = f j := by
  induction l with
  | nil => cases hj
  | cons a l ih =>
    rcases List.nodup_cons.mp hnd with ⟨ha, hnd'⟩
    rcases List.mem_cons.mp hj with rfl | hj'
    · have hrest : (l.map f).sum = 0 := by
        apply List.sum_eq_zero
        intro y hy
        rcases List.mem_map.mp hy with ⟨i, hi, rfl⟩
        exact hz i (List.mem_cons_of_mem _ hi) (fun he => ha (he ▸ hi))
      simp [hrest]
    · have hfa : f a = 0 := by
        apply hz a (List.mem_cons_self _ _)
        intro he
        exact ha (he ▸ hj')
      have := ih hj' hnd' (fun i hi hne => hz i (List.mem_cons_of_mem _ hi) hne)
      simp [hfa, this]

lemma pow_pow_sixtyfour {ω : F} (h : primRoot64 ω) (j : ℕ) :
    (ω ^ j) ^ 64 = 1 := by
  rw [← pow_mul, mul_comm, pow_mul, h.1, one_pow]

lemma evalL_lagBasis_ne {ω : F} (h : primRoot64 ω) {i j : ℕ} (hi : i < 64)
    (hj : j < 64) (hne : i ≠ j) : evalL (lagBasis ω i) (ω ^ j) = 0 := by
  have hmul := evalL_geomList_mul (ω ^ i) 64 (ω ^ j)
  rw [pow_pow_sixtyfour h, pow_pow_sixtyfour h, sub_self] at hmul
  have hsub : ω ^ j - ω ^ i ≠ 0 := by
    refine sub_ne_zero.mpr ?_
    intro he
    exact hne (h.pow_inj hi hj he.symm)
  exact (mul_eq_zero.mp hmul).resolve_right hsub

lemma evalL_lagBasis_self {ω : F} (h : primRoot64 ω) (j : ℕ) :
    ω ^ j * evalL (lagBasis ω j) (ω ^ j) = 64 := by
  unfold lagBasis
  have h64 : (64 : ℕ) = 63 + 1 := by norm_num
  rw [h64, evalL_geomList_self]
  have : ω ^ j * ((63 + 1 : ℕ) * (ω ^ j) ^ 63) = ((63 + 1 : ℕ) : F) * (ω ^ j) ^ 64 := by
    push_cast
    ring
  rw [this, pow_pow_sixtyfour h]
  push_cast
  ring

/-- Interpolation correctness: the modelled `interpolate_poly_over_mult_subgroup`
    takes the prescribed value at every node of H. -/
lemma evalL_interp_node {ω : F} (h : primRoot64 ω) (h64 : (64 : F) ≠ 0)
    (vs : List F) {j : ℕ} (hj : j < 64) :
    evalL (interp ω vs) (ω ^ j) = vs.getD j 0 := by
  unfold interp
  rw [evalL_smulL, evalL_foldr_addL]
  have hsingle := map_sum_eq_single (List.range 64)
    (fun i => evalL (smulL (vs.getD i 0 * ω ^ i) (lagBasis ω i)) (ω ^ j)) j
    (List.mem_range.mpr hj) (List.nodup_range 64) ?_
  · rw [hsingle]
    simp only [evalL_smulL]
    have : vs.getD j 0 * ω ^ j * evalL (lagBasis ω j) (ω ^ j)
        = vs.getD j 0 * (ω ^ j * evalL (lagBasis ω j) (ω ^ j)) := by ring
    rw [this, evalL_lagBasis_self h]
    field_simp
  · intro i hi hne
    simp only [evalL_smulL]
    rw [evalL_lagBasis_ne h (List.mem_range.mp hi) hj hne, mul_zero]

/-! ### Fiat-Shamir hash and KZG check

`utils::fs_hash` and `utils::kzg_check` are not among the sources.  Modelled
from the spec: `fs_hash` deterministically hashes an ordered list of byte
blobs (here: lists of already-canonical field elements, since serialisation
of a field/group element is injective) into `k` field elements;
`kzg_check(C,z,v,π)` verifies `e(C - v·G₁, G₂) = e(π, τ·G₂ - z·G₂)`, which in
exponent form over a prime-order group is `C - v = π·(τ - z)`. -/

def blobMix (l : List F) : F := l.foldl (fun a x => a * 131 + x) 1

def fsHash (blobs : List (List F)) (k : ℕ) : List F :=
  (List.range k).map (fun j => blobs.foldl (fun a b => a * 137 + blobMix b) 1 + (j : F))

/-- The first field element of `fs_hash(blobs, 1)` (the `[0]` of the source). -/
def fsHash1 (blobs : List (List F)) : F := (fsHash blobs 1).getD 0 0

lemma fsHash1_eq (blobs : List (List F)) :
    fsHash1 blobs = blobs.foldl (fun a b => a * 137 + blobMix b) 1 := by
  simp [fsHash1, fsHash, List.range_succ]

/-- Modelled from the spec (4.A): the KZG pairing check, in exponent form;
    `τ` is the trapdoor of the powers-of-τ reference string. -/
def kzgCheck (τ C z v π : F) : Bool := decide (C - v = π * (τ - z))

/-- Completeness of KZG openings: committing to the synthetic-division
    quotient at `z` always passes `kzg_check` against the committed
    polynomial and its claimed evaluation at `z`. -/
lemma kzgCheck_complete (τ : F) (l : List F) (z : F) :
    kzgCheck τ (evalL l τ) z (evalL l z) (evalL (qr l z).1 τ) = true := by
  unfold kzgCheck
  rw [decide_eq_true_eq]
  have h := qr_eval l z τ
  rw [qr_snd] at h
  rw [h]
  ring

/-! ### The permutation argument (main.rs, `compute_permutation_argument` and
`verify_permutation_argument`)

The prover is embedded for honest parties: every MPC wire is replaced by its
reconstructed logical value.  `rs` is the stream of outputs of the 65 `ran()`
invocations that produce the randomizers `r_0 … r_64`; the Beaver triples and
inversion masks only blind the transport and do not influence logical values.
Commitments are KZG commitments in exponent form, i.e. evaluation of the
committed polynomial at the SRS trapdoor `τ`.  Panics of the Rust code
(`unwrap` of a failed inversion, failed `assert_eq!`/`assert!`) are `none`. -/

structure PermutationProof (F : Type) where
  y1 : F
  y2 : F
  y3 : F
  y4 : F
  y5 : F
  pi_1 : F
  pi_2 : F
  pi_3 : F
  pi_4 : F
  pi_5 : F
  f_com : F
  q_com : F
  t_com : F
  deriving DecidableEq

/-- The randomizer `r_i` (i-th output of `ran()` in the first loop). -/
def permR (rs : List F) (i : ℕ) : F := rs.getD i 0

/-- Step 6: `b_i = r_0⁻¹ · r_{i+1}` via a Beaver multiplication. -/
def permB (rs : List F) (i : ℕ) : F := (permR rs 0)⁻¹ * permR rs (i + 1)

/-- Share interpolation of the card vector: `f(X)` (step 8). -/
def permFList (ω : F) (cards : List F) : List F := interp ω cards

/-- Commitment to `f(X)`, summed across parties. -/
def permFCom (τ ω : F) (cards : List F) : F := evalL (permFList ω cards) τ

/-- The canonical deck polynomial `v(X)` with `v(ωⁱ) = ωⁱ` (step 9). -/
def permVList (ω : F) : List F := interp ω (rootsList ω)

/-- Local commitment to `v(X)`. -/
def permVCom (τ ω : F) : F := evalL (permVList ω) τ

/-- Step 12: `γ₁ = fs_hash(v_com, f_com, 1)[0]`. -/
def permGamma1 (τ ω : F) (cards : List F) : F :=
  fsHash1 [[permVCom τ ω], [permFCom τ ω cards]]

/-- Step 13: evaluations of `g(X) = f(X) + γ₁`. -/
def permGEvals (τ ω : F) (cards : List F) : List F :=
  cards.map (fun c => c + permGamma1 τ ω cards)

def permGList (τ ω : F) (cards : List F) : List F :=
  interp ω (permGEvals τ ω cards)

def permGCom (τ ω : F) (cards : List F) : F := evalL (permGList τ ω cards) τ

/-- Step 14: evaluations of `h(X) = v(X) + γ₁`. -/
def permHEvals (τ ω : F) (cards : List F) : List F :=
  (rootsList ω).map (fun v => v + permGamma1 τ ω cards)

def permHList (τ ω : F) (cards : List F) : List F :=
  interp ω (permHEvals τ ω cards)

def permG (τ ω : F) (cards : List F) (i : ℕ) : F :=
  (permGEvals τ ω cards).getD i 0

def permH (τ ω : F) (cards : List F) (i : ℕ) : F :=
  (permHEvals τ ω cards).getD i 0

/-- Steps 15-19: `t'_i = r_{i+1}⁻¹ · (r_i · (h_i⁻¹ · g_i))`, reconstructed. -/
def permTprime (τ ω : F) (cards rs : List F) (i : ℕ) : F :=
  (permR rs (i + 1))⁻¹ * (permR rs i * ((permH τ ω cards i)⁻¹ * permG τ ω cards i))

/-- Steps 20-22: `t_i = (∏_{j ≤ i} t'_j) · b_i`. -/
def permTval (τ ω : F) (cards rs : List F) (i : ℕ) : F :=
  ((List.range (i + 1)).map (permTprime τ ω cards rs)).prod * permB rs i

def permTvals (τ ω : F) (cards rs : List F) : List F :=
  (List.range 64).map (permTval τ ω cards rs)

def permTList (τ ω : F) (cards rs : List F) : List F :=
  interp ω (permTvals τ ω cards rs)

def permTCom (τ ω : F) (cards rs : List F) : F :=
  evalL (permTList τ ω cards rs) τ

/-- Step 24: `d(X) = h(X)·t(X) − g(X)·t(X/ω)`. -/
def permDList (τ ω : F) (cards rs : List F) : List F :=
  subL (mulL (permHList τ ω cards) (permTList τ ω cards rs))
    (mulL (permGList τ ω cards) (domainDivOmega ω (permTList τ ω cards rs)))

/-- Quotient of `d(X)` by the vanishing polynomial `X⁶⁴ − 1`: for
    `deg d < 128` arkworks' `divide_by_vanishing_poly` returns the upper
    coefficient block as quotient (and folds it into the lower block for the
    discarded remainder). -/
def permQList (τ ω : F) (cards rs : List F) : List F :=
  (permDList τ ω cards rs).drop 64

def permQCom (τ ω : F) (cards rs : List F) : F :=
  evalL (permQList τ ω cards rs) τ

/-- The γ₂ challenge: `fs_hash(v_com, f_com, q_com, t_com, g_com, 1)[0]`. -/
def permGamma2 (τ ω : F) (cards rs : List F) : F :=
  fsHash1 [[permVCom τ ω], [permFCom τ ω cards], [permQCom τ ω cards rs],
    [permTCom τ ω cards rs], [permGCom τ ω cards]]

/-- The proof emitted on a successful honest run: the five openings with
    their KZG evaluation proofs, and the three commitments. -/
def permProofOf (τ ω : F) (cards rs : List F) : PermutationProof F :=
  { y1 := evalL (permTList τ ω cards rs) (ω ^ 63)
    pi_1 := evalL (qr (permTList τ ω cards rs) (ω ^ 63)).1 τ
    y2 := evalL (permTList τ ω cards rs) (permGamma2 τ ω cards rs)
    pi_2 := evalL (qr (permTList τ ω cards rs) (permGamma2 τ ω cards rs)).1 τ
    y3 := evalL (permTList τ ω cards rs) (permGamma2 τ ω cards rs / ω)
    pi_3 := evalL (qr (permTList τ ω cards rs) (permGamma2 τ ω cards rs / ω)).1 τ
    y4 := evalL (permGList τ ω cards) (permGamma2 τ ω cards rs)
    pi_4 := evalL (qr (permGList τ ω cards) (permGamma2 τ ω cards rs)).1 τ
    y5 := evalL (permQList τ ω cards rs) (permGamma2 τ ω cards rs)
    pi_5 := evalL (qr (permQList τ ω cards rs) (permGamma2 τ ω cards rs)).1 τ
    f_com := permFCom τ ω cards
    q_com := permQCom τ ω cards rs
    t_com := permTCom τ ω cards rs }

/-- The prover `compute_permutation_argument` for honest parties.  `none`
    models a panic/abort: a zero randomizer (inversion failure), a zero
    `h_i` (`.inverse().unwrap()`), the `assert_eq!(g_com, g_com_verifier)`,
    or the sanity `assert!` that `d` vanishes on H.  The stream `rs` must
    supply the 65 `ran()` outputs of the first loop. -/
def computePermutationArgument (τ ω : F) (cards rs : List F) :
    Option (PermutationProof F) :=
  if rs.length < 65 then none
  else if ∃ i ∈ List.range 65, permR rs i = 0 then none
  else if cards.length ≠ 64 then none
  else if permGCom τ ω cards ≠ permFCom τ ω cards + permGamma1 τ ω cards then none
  else if ∃ x ∈ permHEvals τ ω cards, x = 0 then none
  else if ∃ i ∈ List.range 64, evalL (permDList τ ω cards rs) (ω ^ i) ≠ 0 then none
  else some (permProofOf τ ω cards rs)

/-- The public verifier `verify_permutation_argument`: recomputes `v_com`,
    `γ₁`, `g_com`, `γ₂`, performs the five `kzg_check` calls and the two
    algebraic checks, and conjoins all seven results. -/
def verifyPermutationArgument (τ ω : F) (p : PermutationProof F) : Bool :=
  let v_com := evalL (interp ω (rootsList ω)) τ
  let hash1 := fsHash1 [[v_com], [p.f_com]]
  let g_com := p.f_com + hash1
  let hash2 := fsHash1 [[v_com], [p.f_com], [p.q_com], [p.t_com], [g_com]]
  kzgCheck τ p.t_com (ω ^ 63) p.y1 p.pi_1 &&
  kzgCheck τ p.t_com hash2 p.y2 p.pi_2 &&
  kzgCheck τ p.t_com (hash2 / ω) p.y3 p.pi_3 &&
  kzgCheck τ g_com hash2 p.y4 p.pi_4 &&
  kzgCheck τ p.q_com hash2 p.y5 p.pi_5 &&
  decide (p.y2 * (evalL (interp ω (rootsList ω)) hash2 + hash1) - p.y3 * p.y4
    = p.y5 * (hash2 ^ 64 - 1)) &&
  decide (p.y1 = 1)

/-- The verifier's recomputed `γ₁` (hash of `v_com` and the proof's
    `f_com`). -/
def permVerHash1 (τ ω : F) (p : PermutationProof F) : F :=
  fsHash1 [[permVCom τ ω], [p.f_com]]

/-- The verifier's recomputed `γ₂` (hash of `v_com`, `f_com`, `q_com`,
    `t_com` and the recomputed `g_com = f_com + γ₁`). -/
def permVerHash2 (τ ω : F) (p : PermutationProof F) : F :=
  fsHash1 [[permVCom τ ω], [p.f_com], [p.q_com], [p.t_com],
    [p.f_com + permVerHash1 τ ω p]]

/-! ### Completeness lemmas for the permutation argument -/

lemma getD_map_range (f : ℕ → F) {n i : ℕ} (h : i < n) :
    ((List.range n).map f).getD i 0 = f i := by
  rw [List.getD_eq_getElem?_getD, List.getElem?_map, List.getElem?_range h]
  rfl

lemma getD_map (f : F → F) (l : List F) {i : ℕ} (h : i < l.length) :
    (l.map f).getD i 0 = f (l.getD i 0) := by
  have h' : i < (l.map f).length := by simpa using h
  rw [List.getD_eq_getElem _ _ h', List.getElem_map, List.getD_eq_getElem _ _ h]

@[simp] lemma length_permGEvals (τ ω : F) (cards : List F) :
    (permGEvals τ ω cards).length = cards.length := by
  simp [permGEvals]

@[simp] lemma length_permHEvals (τ ω : F) (cards : List F) :
    (permHEvals τ ω cards).length = 64 := by
  simp [permHEvals]

lemma permH_eq (τ ω : F) (cards : List F) {i : ℕ} (hi : i < 64) :
    permH τ ω cards i = ω ^ i + permGamma1 τ ω cards := by
  unfold permH permHEvals
  rw [getD_map _ _ (by simp [hi]), rootsList, getD_map_range _ hi]

lemma permG_eq (τ ω : F) (cards : List F) (hcards : cards.length = 64)
    {i : ℕ} (hi : i < 64) :
    permG τ ω cards i = cards.getD i 0 + permGamma1 τ ω cards := by
  unfold permG permGEvals
  rw [getD_map _ _ (by omega)]

lemma evalT_node {ω : F} (h : primRoot64 ω) (h64 : (64 : F) ≠ 0)
    (τ : F) (cards rs : List F) {i : ℕ} (hi : i < 64) :
    evalL (permTList τ ω cards rs) (ω ^ i) = permTval τ ω cards rs i := by
  rw [permTList, evalL_interp_node h h64 _ hi, permTvals, getD_map_range _ hi]

lemma evalG_node {ω : F} (h : primRoot64 ω) (h64 : (64 : F) ≠ 0)
    (τ : F) (cards : List F) {i : ℕ} (hi : i < 64) :
    evalL (permGList τ ω cards) (ω ^ i) = permG τ ω cards i := by
  rw [permGList, evalL_interp_node h h64 _ hi, permG]

lemma evalH_node {ω : F} (h : primRoot64 ω) (h64 : (64 : F) ≠ 0)
    (τ : F) (cards : List F) {i : ℕ} (hi : i < 64) :
    evalL (permHList τ ω cards) (ω ^ i) = permH τ ω cards i := by
  rw [permHList, evalL_interp_node h h64 _ hi, permH]

lemma evalV_node {ω : F} (h : primRoot64 ω) (h64 : (64 : F) ≠ 0)
    {i : ℕ} (hi : i < 64) :
    evalL (permVList ω) (ω ^ i) = ω ^ i := by
  rw [permVList, evalL_interp_node h h64 _ hi, rootsList, getD_map_range _ hi]

/-- The running ratio product `∏_{j ≤ i} g_j / h_j` that `t_i` must equal. -/
def permQprod (τ ω : F) (cards : List F) (i : ℕ) : F :=
  ((List.range (i + 1)).map
    (fun j => permG τ ω cards j * (permH τ ω cards j)⁻¹)).prod

lemma permQprod_succ (τ ω : F) (cards : List F) (i : ℕ) :
    permQprod τ ω cards (i + 1)
      = permQprod τ ω cards i
        * (permG τ ω cards (i + 1) * (permH τ ω cards (i + 1))⁻¹) := by
  unfold permQprod
  rw [List.range_succ, List.map_append, List.prod_append]
  simp only [List.map_cons, List.map_nil, List.prod_cons, List.prod_nil, mul_one]

lemma permProd_eq (τ ω : F) (cards rs : List F)
    (hr : ∀ i < 65, permR rs i ≠ 0) :
    ∀ i, i < 64 →
      ((List.range (i + 1)).map (permTprime τ ω cards rs)).prod
        = permR rs 0 * (permR rs (i + 1))⁻¹ * permQprod τ ω cards i := by
  intro i
  induction i with
  | zero =>
    intro _
    have h1 : List.range 1 = [0] := by decide
    simp only [h1, List.map_cons, List.map_nil, List.prod_cons,
      List.prod_nil, mul_one, permQprod, permTprime, zero_add]
    ring
  | succ k ih =>
    intro hk
    have hprev := ih (by omega)
    rw [List.range_succ, List.map_append, List.prod_append]
    simp only [List.map_cons, List.map_nil, List.prod_cons, List.prod_nil, mul_one]
    rw [hprev, permQprod_succ]
    have hc : (permR rs (k + 1))⁻¹ * permR rs (k + 1) = 1 :=
      inv_mul_cancel₀ (hr (k + 1) (by omega))
    calc permR rs 0 * (permR rs (k + 1))⁻¹ * permQprod τ ω cards k
          * permTprime τ ω cards rs (k + 1)
        = permR rs 0 * (permR rs (k + 1 + 1))⁻¹
            * (permQprod τ ω cards k
              * (permG τ ω cards (k + 1) * (permH τ ω cards (k + 1))⁻¹))
            * ((permR rs (k + 1))⁻¹ * permR rs (k + 1)) := by
          unfold permTprime
          ring
      _ = permR rs 0 * (permR rs (k + 1 + 1))⁻¹
            * (permQprod τ ω cards k
              * (permG τ ω cards (k + 1) * (permH τ ω cards (k + 1))⁻¹)) := by
          rw [hc, mul_one]

lemma permTval_eq (τ ω : F) (cards rs : List F)
    (hr : ∀ i < 65, permR rs i ≠ 0) {i : ℕ} (hi : i < 64) :
    permTval τ ω cards rs i = permQprod τ ω cards i := by
  unfold permTval permB
  rw [permProd_eq τ ω cards rs hr i hi]
  have h0 : permR rs 0 * (permR rs 0)⁻¹ = 1 := mul_inv_cancel₀ (hr 0 (by omega))
  have h1 : (permR rs (i + 1))⁻¹ * permR rs (i + 1) = 1 :=
    inv_mul_cancel₀ (hr (i + 1) (by omega))
  calc permR rs 0 * (permR rs (i + 1))⁻¹ * permQprod τ ω cards i
        * ((permR rs 0)⁻¹ * permR rs (i + 1))
      = permQprod τ ω cards i * (permR rs 0 * (permR rs 0)⁻¹)
        * ((permR rs (i + 1))⁻¹ * permR rs (i + 1)) := by ring
    _ = permQprod τ ω cards i := by rw [h0, h1, mul_one, mul_one]

lemma prod_mul_inv_map (a b : ℕ → F) (n : ℕ) :
    ((List.range n).map (fun j => a j * (b j)⁻¹)).prod
      = ((List.range n).map a).prod * (((List.range n).map b).prod)⁻¹ := by
  induction n with
  | zero => simp
  | succ n ih =>
    rw [List.range_succ]
    simp only [List.map_append, List.prod_append, List.map_cons, List.map_nil,
      List.prod_cons, List.prod_nil, mul_one]
    rw [ih, mul_inv]
    ring

lemma prod_getD_range (l : List F) :
    ((List.range l.length).map (fun j => l.getD j 0)).prod = l.prod := by
  induction l with
  | nil => simp
  | cons a l ih =>
    have hfun : ((fun j => (a :: l).getD j 0) ∘ Nat.succ) = fun j => l.getD j 0 := by
      funext j
      simp [List.getD_cons_succ]
    rw [List.length_cons, List.range_succ_eq_map, List.map_cons, List.map_map,
      hfun, List.prod_cons, List.getD_cons_zero, ih, List.prod_cons]

lemma mem_permHEvals_ne_zero (τ ω : F) (cards : List F)
    (hh : ∀ i < 64, permH τ ω cards i ≠ 0) :
    ∀ x ∈ permHEvals τ ω cards, x ≠ 0 := by
  intro x hx
  rcases List.mem_iff_getElem.mp hx with ⟨i, hilen, rfl⟩
  have hi : i < 64 := by
    have := length_permHEvals τ ω cards
    omega
  have := hh i hi
  rw [permH, List.getD_eq_getElem _ _ hilen] at this
  exact this

lemma permHEvals_prod_ne_zero (τ ω : F) (cards : List F)
    (hh : ∀ i < 64, permH τ ω cards i ≠ 0) :
    (permHEvals τ ω cards).prod ≠ 0 :=
  List.prod_ne_zero (fun h0 => mem_permHEvals_ne_zero τ ω cards hh 0 h0 rfl)

/-- With the cards a permutation of H, the grand product closes to 1. -/
lemma permQprod_63 {ω : F} (τ : F) (cards : List F)
    (hperm : cards.Perm (rootsList ω))
    (hh : ∀ i < 64, permH τ ω cards i ≠ 0) :
    permQprod τ ω cards 63 = 1 := by
  have hcards : cards.length = 64 := by
    have := hperm.length_eq
    simpa using this
  unfold permQprod
  have h641 : (63 : ℕ) + 1 = 64 := by norm_num
  rw [h641, prod_mul_inv_map]
  have hg : ((List.range 64).map (permG τ ω cards)).prod
      = (permGEvals τ ω cards).prod := by
    have hlen : (permGEvals τ ω cards).length = 64 := by simp [hcards]
    rw [← hlen]
    exact prod_getD_range _
  have hhp : ((List.range 64).map (permH τ ω cards)).prod
      = (permHEvals τ ω cards).prod := by
    have hlen : (permHEvals τ ω cards).length = 64 := by simp
    rw [← hlen]
    exact prod_getD_range _
  rw [hg, hhp]
  have hgh : (permGEvals τ ω cards).prod = (permHEvals τ ω cards).prod :=
    (hperm.map (fun c => c + permGamma1 τ ω cards)).prod_eq
  rw [hgh]
  exact mul_inv_cancel₀ (permHEvals_prod_ne_zero τ ω cards hh)

@[simp] lemma evalL_singleton (c x : F) : evalL [c] x = c := by simp

lemma length_permFList_le (ω : F) (cards : List F) :
    (permFList ω cards).length ≤ 64 := length_interp_le _ _

lemma length_permGList_le (τ ω : F) (cards : List F) :
    (permGList τ ω cards).length ≤ 64 := length_interp_le _ _

lemma length_permHList_le (τ ω : F) (cards : List F) :
    (permHList τ ω cards).length ≤ 64 := length_interp_le _ _

lemma length_permTList_le (τ ω : F) (cards rs : List F) :
    (permTList τ ω cards rs).length ≤ 64 := length_interp_le _ _

lemma length_permDList_le (τ ω : F) (cards rs : List F) :
    (permDList τ ω cards rs).length ≤ 128 := by
  unfold permDList
  rw [length_subL]
  have h1 := length_mulL (permHList τ ω cards) (permTList τ ω cards rs)
  have h2 := length_mulL (permGList τ ω cards)
    (domainDivOmega ω (permTList τ ω cards rs))
  have i1 := length_permHList_le τ ω cards
  have i2 := length_permTList_le τ ω cards rs
  have i3 := length_permGList_le τ ω cards
  have i4 : (domainDivOmega ω (permTList τ ω cards rs)).length ≤ 64 := by
    rw [length_domainDivOmega]
    exact i2
  omega

/-- The `assert_eq!(g_com, g_com_verifier)` of the prover holds: committing
    the interpolation of the shifted evaluations equals `f_com + γ₁·G₁`. -/
lemma permGCom_eq {ω : F} (h : primRoot64 ω) (h64 : (64 : F) ≠ 0) (τ : F)
    (cards : List F) (hcards : cards.length = 64) :
    permGCom τ ω cards = permFCom τ ω cards + permGamma1 τ ω cards := by
  have hag := agree_of_nodes h (permGList τ ω cards)
    (addL (permFList ω cards) [permGamma1 τ ω cards])
    (length_permGList_le τ ω cards)
    (by
      rw [length_addL]
      have := length_permFList_le ω cards
      simp only [List.length_cons, List.length_nil]
      omega)
    (by
      intro j hj
      rw [evalG_node h h64 _ _ hj, permG_eq τ ω cards hcards hj, evalL_addL,
        evalL_singleton]
      unfold permFList
      rw [evalL_interp_node h h64 _ hj])
  have := hag τ
  rw [evalL_addL, evalL_singleton] at this
  exact this

/-- `h(X) = v(X) + γ₁` as committed/evaluated polynomials, everywhere. -/
lemma permH_eval_eq {ω : F} (h : primRoot64 ω) (h64 : (64 : F) ≠ 0) (τ : F)
    (cards : List F) (x : F) :
    evalL (permHList τ ω cards) x
      = evalL (permVList ω) x + permGamma1 τ ω cards := by
  have hag := agree_of_nodes h (permHList τ ω cards)
    (addL (permVList ω) [permGamma1 τ ω cards])
    (length_permHList_le τ ω cards)
    (by
      rw [length_addL]
      have := length_interp_le ω (rootsList ω)
      unfold permVList
      simp only [List.length_cons, List.length_nil]
      omega)
    (by
      intro j hj
      rw [evalH_node h h64 _ _ hj, permH_eq τ ω cards hj, evalL_addL,
        evalL_singleton, evalV_node h h64 hj])
  have := hag x
  rw [evalL_addL, evalL_singleton] at this
  exact this

/-- The grand-product polynomial identity holds on all of H: the `assert!`
    in the prover's sanity loop passes. -/
lemma permD_node {ω : F} (h : primRoot64 ω) (h64 : (64 : F) ≠ 0) (τ : F)
    (cards rs : List F) (hperm : cards.Perm (rootsList ω))
    (hr : ∀ i < 65, permR rs i ≠ 0)
    (hh : ∀ i < 64, permH τ ω cards i ≠ 0)
    {i : ℕ} (hi : i < 64) :
    evalL (permDList τ ω cards rs) (ω ^ i) = 0 := by
  unfold permDList
  rw [evalL_subL, evalL_mulL, evalL_mulL, evalL_domainDivOmega,
    evalH_node h h64 _ _ hi, evalG_node h h64 _ _ hi, evalT_node h h64 _ _ _ hi]
  cases i with
  | zero =>
    have hinv : ω⁻¹ * ω ^ 0 = ω ^ 63 := by
      rw [pow_zero, mul_one]
      refine inv_eq_of_mul_eq_one_right ?_
      have h64' : (64 : ℕ) = 63 + 1 := by norm_num
      rw [show ω * ω ^ 63 = ω ^ (63 + 1) from (pow_succ' ω 63).symm, ← h64', h.1]
    rw [hinv, evalT_node h h64 _ _ _ (by omega),
      permTval_eq _ _ _ _ hr (by omega), permTval_eq _ _ _ _ hr (by omega),
      permQprod_63 τ cards hperm hh]
    have hq0 : permQprod τ ω cards 0
        = permG τ ω cards 0 * (permH τ ω cards 0)⁻¹ := by
      unfold permQprod
      have h1 : List.range (0 + 1) = [0] := by decide
      simp [h1]
    rw [hq0]
    have hh0 := hh 0 (by omega)
    field_simp
  | succ k =>
    have hk : k < 64 := by omega
    have hinv : ω⁻¹ * ω ^ (k + 1) = ω ^ k := by
      rw [pow_succ, mul_comm (ω ^ k) ω, ← mul_assoc, inv_mul_cancel₀ h.ne_zero,
        one_mul]
    rw [hinv, evalT_node h h64 _ _ _ hk, permTval_eq _ _ _ _ hr (by omega),
      permTval_eq _ _ _ _ hr hk, permQprod_succ]
    have hhk := hh (k + 1) (by omega)
    field_simp
    ring

/-- Division by the vanishing polynomial `X⁶⁴ − 1` as an evaluation
    identity: `d(x) = q(x)·(x⁶⁴−1) + r(x)` with `q` the upper coefficient
    block and `r` the folded remainder. -/
lemma evalL_split64 (l : List F) (x : F) :
    evalL l x = evalL (l.drop 64) x * (x ^ 64 - 1)
      + evalL (addL (l.take 64) (l.drop 64)) x := by
  rcases le_or_lt 64 l.length with hle | hlt
  · conv_lhs => rw [← List.take_append_drop 64 l]
    rw [evalL_append, List.length_take, min_eq_left hle, evalL_addL]
    ring
  · have hdrop : l.drop 64 = [] := List.drop_eq_nil_of_le (by omega)
    have htake : l.take 64 = l := List.take_of_length_le (by omega)
    rw [hdrop, htake]
    simp

/-- The remainder of `d(X)` by the vanishing polynomial is the zero
    polynomial (as `d` vanishes on all of H). -/
lemma permRem_zero {ω : F} (h : primRoot64 ω) (h64 : (64 : F) ≠ 0) (τ : F)
    (cards rs : List F) (hperm : cards.Perm (rootsList ω))
    (hr : ∀ i < 65, permR rs i ≠ 0)
    (hh : ∀ i < 64, permH τ ω cards i ≠ 0) (x : F) :
    evalL (addL ((permDList τ ω cards rs).take 64)
      ((permDList τ ω cards rs).drop 64)) x = 0 := by
  refine vanish_of_roots (rootsList ω) _ ?_ (rootsList_nodup h) ?_ x
  · rw [length_addL, length_rootsList, List.length_take, List.length_drop]
    have := length_permDList_le τ ω cards rs
    omega
  · intro z hz
    rcases List.mem_map.mp hz with ⟨j, hjr, rfl⟩
    have hj : j < 64 := List.mem_range.mp hjr
    have hsplit := evalL_split64 (permDList τ ω cards rs) (ω ^ j)
    have hd0 := permD_node h h64 τ cards rs hperm hr hh hj
    have hvan : (ω ^ j : F) ^ 64 - 1 = 0 := by
      rw [pow_pow_sixtyfour h]
      ring
    rw [hd0, hvan, mul_zero, zero_add] at hsplit
    exact hsplit.symm

/-- Structural reading of the verifier: it accepts exactly when the five
    `kzg_check` calls pass, the polynomial identity V1 holds at the
    recomputed `γ₂`, and `y₁ = 1`, with `γ₁, γ₂` recomputed by Fiat-Shamir
    from the commitments. -/
lemma verify_iff (τ ω : F) (p : PermutationProof F) :
    verifyPermutationArgument τ ω p = true ↔
      (kzgCheck τ p.t_com (ω ^ 63) p.y1 p.pi_1 = true ∧
       kzgCheck τ p.t_com (permVerHash2 τ ω p) p.y2 p.pi_2 = true ∧
       kzgCheck τ p.t_com (permVerHash2 τ ω p / ω) p.y3 p.pi_3 = true ∧
       kzgCheck τ (p.f_com + permVerHash1 τ ω p) (permVerHash2 τ ω p)
         p.y4 p.pi_4 = true ∧
       kzgCheck τ p.q_com (permVerHash2 τ ω p) p.y5 p.pi_5 = true ∧
       p.y2 * (evalL (permVList ω) (permVerHash2 τ ω p) + permVerHash1 τ ω p)
         - p.y3 * p.y4 = p.y5 * (permVerHash2 τ ω p ^ 64 - 1) ∧
       p.y1 = 1) := by
  unfold verifyPermutationArgument permVerHash2 permVerHash1 permVCom permVList
  simp [Bool.and_eq_true, decide_eq_true_eq, and_assoc]

lemma permProofOf_y1 (τ ω : F) (cards rs : List F) :
    (permProofOf τ ω cards rs).y1 = evalL (permTList τ ω cards rs) (ω ^ 63) := rfl

lemma permProofOf_y2 (τ ω : F) (cards rs : List F) :
    (permProofOf τ ω cards rs).y2
      = evalL (permTList τ ω cards rs) (permGamma2 τ ω cards rs) := rfl

lemma permProofOf_y3 (τ ω : F) (cards rs : List F) :
    (permProofOf τ ω cards rs).y3
      = evalL (permTList τ ω cards rs) (permGamma2 τ ω cards rs / ω) := rfl

lemma permProofOf_y4 (τ ω : F) (cards rs : List F) :
    (permProofOf τ ω cards rs).y4
      = evalL (permGList τ ω cards) (permGamma2 τ ω cards rs) := rfl

lemma permProofOf_y5 (τ ω : F) (cards rs : List F) :
    (permProofOf τ ω cards rs).y5
      = evalL (permQList τ ω cards rs) (permGamma2 τ ω cards rs) := by
  simp only [permProofOf]

lemma permProofOf_pi1 (τ ω : F) (cards rs : List F) :
    (permProofOf τ ω cards rs).pi_1
      = evalL (qr (permTList τ ω cards rs) (ω ^ 63)).1 τ := rfl

lemma permProofOf_pi2 (τ ω : F) (cards rs : List F) :
    (permProofOf τ ω cards rs).pi_2
      = evalL (qr (permTList τ ω cards rs) (permGamma2 τ ω cards rs)).1 τ := rfl

lemma permProofOf_pi3 (τ ω : F) (cards rs : List F) :
    (permProofOf τ ω cards rs).pi_3
      = evalL (qr (permTList τ ω cards rs) (permGamma2 τ ω cards rs / ω)).1 τ := rfl

lemma permProofOf_pi4 (τ ω : F) (cards rs : List F) :
    (permProofOf τ ω cards rs).pi_4
      = evalL (qr (permGList τ ω cards) (permGamma2 τ ω cards rs)).1 τ := rfl

lemma permProofOf_pi5 (τ ω : F) (cards rs : List F) :
    (permProofOf τ ω cards rs).pi_5
      = evalL (qr (permQList τ ω cards rs) (permGamma2 τ ω cards rs)).1 τ := by
  simp only [permProofOf]

lemma permProofOf_fcom (τ ω : F) (cards rs : List F) :
    (permProofOf τ ω cards rs).f_com = permFCom τ ω cards := rfl

lemma permProofOf_qcom (τ ω : F) (cards rs : List F) :
    (permProofOf τ ω cards rs).q_com = permQCom τ ω cards rs := by
  simp only [permProofOf]

lemma permProofOf_tcom (τ ω : F) (cards rs : List F) :
    (permProofOf τ ω cards rs).t_com = permTCom τ ω cards rs := rfl

lemma permFCom_def (τ ω : F) (cards : List F) :
    permFCom τ ω cards = evalL (permFList ω cards) τ := rfl

lemma permGCom_def (τ ω : F) (cards : List F) :
    permGCom τ ω cards = evalL (permGList τ ω cards) τ := rfl

lemma permTCom_def (τ ω : F) (cards rs : List F) :
    permTCom τ ω cards rs = evalL (permTList τ ω cards rs) τ := rfl

lemma permQCom_def (τ ω : F) (cards rs : List F) :
    permQCom τ ω cards rs = evalL (permQList τ ω cards rs) τ := rfl

lemma permQList_def (τ ω : F) (cards rs : List F) :
    permQList τ ω cards rs = (permDList τ ω cards rs).drop 64 := rfl

lemma verHash1_permProofOf (τ ω : F) (cards rs : List F) :
    permVerHash1 τ ω (permProofOf τ ω cards rs) = permGamma1 τ ω cards := by
  unfold permVerHash1 permGamma1
  rw [permProofOf_fcom]

lemma verHash2_permProofOf {ω : F} (h : primRoot64 ω) (h64 : (64 : F) ≠ 0)
    (τ : F) (cards rs : List F) (hcards : cards.length = 64) :
    permVerHash2 τ ω (permProofOf τ ω cards rs) = permGamma2 τ ω cards rs := by
  unfold permVerHash2 permGamma2
  rw [verHash1_permProofOf, permProofOf_fcom, permProofOf_qcom,
    permProofOf_tcom, ← permGCom_eq h h64 τ cards hcards]

/-- Completeness of the verifier on honestly produced proofs. -/
lemma verify_permProofOf {ω : F} (h : primRoot64 ω) (h64 : (64 : F) ≠ 0)
    (τ : F) (cards rs : List F) (hperm : cards.Perm (rootsList ω))
    (hr : ∀ i < 65, permR rs i ≠ 0)
    (hh : ∀ i < 64, permH τ ω cards i ≠ 0) :
    verifyPermutationArgument τ ω (permProofOf τ ω cards rs) = true := by
  have hcards : cards.length = 64 := by simpa using hperm.length_eq
  rw [verify_iff, verHash1_permProofOf, verHash2_permProofOf h h64 τ cards rs hcards]
  rw [permProofOf_y1, permProofOf_y2, permProofOf_y3, permProofOf_y4,
    permProofOf_y5, permProofOf_pi1, permProofOf_pi2, permProofOf_pi3,
    permProofOf_pi4, permProofOf_pi5, permProofOf_fcom, permProofOf_qcom,
    permProofOf_tcom, permTCom_def, permQCom_def]
  refine ⟨?_, ?_, ?_, ?_, ?_, ?_, ?_⟩
  · exact kzgCheck_complete τ (permTList τ ω cards rs) (ω ^ 63)
  · exact kzgCheck_complete τ (permTList τ ω cards rs) (permGamma2 τ ω cards rs)
  · exact kzgCheck_complete τ (permTList τ ω cards rs)
      (permGamma2 τ ω cards rs / ω)
  · rw [← permGCom_eq h h64 τ cards hcards, permGCom_def]
    exact kzgCheck_complete τ (permGList τ ω cards) (permGamma2 τ ω cards rs)
  · exact kzgCheck_complete τ (permQList τ ω cards rs) (permGamma2 τ ω cards rs)
  · have hveq := permH_eval_eq h h64 τ cards (permGamma2 τ ω cards rs)
    rw [← hveq]
    have hdiv : evalL (permTList τ ω cards rs) (permGamma2 τ ω cards rs / ω)
        = evalL (domainDivOmega ω (permTList τ ω cards rs))
            (permGamma2 τ ω cards rs) := by
      rw [evalL_domainDivOmega, div_eq_mul_inv, mul_comm]
    rw [hdiv]
    have hsplit := evalL_split64 (permDList τ ω cards rs) (permGamma2 τ ω cards rs)
    have hrem := permRem_zero h h64 τ cards rs hperm hr hh (permGamma2 τ ω cards rs)
    rw [hrem, add_zero] at hsplit
    have hd : evalL (permDList τ ω cards rs) (permGamma2 τ ω cards rs)
        = evalL (permHList τ ω cards) (permGamma2 τ ω cards rs)
            * evalL (permTList τ ω cards rs) (permGamma2 τ ω cards rs)
          - evalL (permGList τ ω cards) (permGamma2 τ ω cards rs)
            * evalL (domainDivOmega ω (permTList τ ω cards rs))
                (permGamma2 τ ω cards rs) := by
      unfold permDList
      rw [evalL_subL, evalL_mulL, evalL_mulL]
    rw [hd] at hsplit
    rw [permQList_def]
    linear_combination hsplit
  · rw [evalT_node h h64 _ _ _ (by omega), permTval_eq _ _ _ _ hr (by omega),
      permQprod_63 τ cards hperm hh]

/-- C2: for every permutation proof produced by `compute_permutation_argument`
    when all parties follow the protocol honestly (each wire holds its
    reconstructed logical value, the card vector is a permutation of H, the
    randomizer stream is long enough and nonzero, and the shifted
    denominators `h_i` are invertible so the prover does not abort),
    the run succeeds and `verify_permutation_argument` accepts the proof. -/
theorem c2_perm_completeness (τ ω : F) (h : primRoot64 ω) (h64 : (64 : F) ≠ 0)
    (cards rs : List F) (hperm : cards.Perm (rootsList ω))
    (hrlen : 65 ≤ rs.length) (hr : ∀ i < 65, permR rs i ≠ 0)
    (hh : ∀ i < 64, permH τ ω cards i ≠ 0) :
    computePermutationArgument τ ω cards rs = some (permProofOf τ ω cards rs) ∧
    verifyPermutationArgument τ ω (permProofOf τ ω cards rs) = true := by
  have hcards : cards.length = 64 := by simpa using hperm.length_eq
  refine ⟨?_, verify_permProofOf h h64 τ cards rs hperm hr hh⟩
  have hg2 : ¬ ∃ i ∈ List.range 65, permR rs i = 0 := by
    push_neg
    intro i hi
    exact hr i (List.mem_range.mp hi)
  have hg4 : ¬ (permGCom τ ω cards ≠ permFCom τ ω cards + permGamma1 τ ω cards) := by
    simp only [ne_eq, not_not]
    exact permGCom_eq h h64 τ cards hcards
  have hg5 : ¬ ∃ x ∈ permHEvals τ ω cards, x = 0 := by
    push_neg
    exact mem_permHEvals_ne_zero τ ω cards hh
  have hg6 : ¬ ∃ i ∈ List.range 64,
      evalL (permDList τ ω cards rs) (ω ^ i) ≠ 0 := by
    push_neg
    intro i hi
    exact permD_node h h64 τ cards rs hperm hr hh (List.mem_range.mp hi)
  unfold computePermutationArgument
  rw [if_neg (by omega), if_neg hg2, if_neg (by omega), if_neg hg4, if_neg hg5,
    if_neg hg6]

/-- C3: `verify_permutation_argument` returns true exactly when, with γ₁ and
    γ₂ recomputed by Fiat-Shamir from the commitments, the five `kzg_check`
    calls (t_com at ω⁶³, t_com at γ₂, t_com at γ₂/ω, g_com at γ₂, q_com at
    γ₂) pass, the identity y₂·(v(γ₂)+γ₁) − y₃·y₄ = y₅·(γ₂⁶⁴−1) holds, and
    y₁ = 1; if any of these fails it returns false. -/
theorem c3_perm_verifier_checks (τ ω : F) (p : PermutationProof F) :
    verifyPermutationArgument τ ω p = true ↔
      (kzgCheck τ p.t_com (ω ^ 63) p.y1 p.pi_1 = true ∧
       kzgCheck τ p.t_com (permVerHash2 τ ω p) p.y2 p.pi_2 = true ∧
       kzgCheck τ p.t_com (permVerHash2 τ ω p / ω) p.y3 p.pi_3 = true ∧
       kzgCheck τ (p.f_com + permVerHash1 τ ω p) (permVerHash2 τ ω p)
         p.y4 p.pi_4 = true ∧
       kzgCheck τ p.q_com (permVerHash2 τ ω p) p.y5 p.pi_5 = true ∧
       p.y2 * (evalL (permVList ω) (permVerHash2 τ ω p) + permVerHash1 τ ω p)
         - p.y3 * p.y4 = p.y5 * (permVerHash2 τ ω p ^ 64 - 1) ∧
       p.y1 = 1) :=
  verify_iff τ ω p

/-! ### The shuffle (main.rs, `shuffle_deck`)

Honest-evaluator model.  `sk` is the reconstructed secret key from `ran()`.
The distributed PRF value `y = g^{1/(sk+card)}` revealed by
`output_wire_in_exponent` is represented by its exponent `(sk + card)⁻¹`
(faithful: the exponent map is a bijection on a prime-order group).
`draws` is the stream of outputs of `ran_64` in the rejection-sampling loop
(one per iteration); the loop runs until 64 cards are collected, so
exhausting `draws` without reaching 64 cards is `none` ("the loop is still
running"), as is an inversion of zero (the MPC `inv` aborts). -/

def shuffleLoop (sk : F) : List F → List F → List F → Option (List F)
  | _, cardsAcc, [] => if 64 ≤ cardsAcc.length then some cardsAcc else none
  | prfs, cardsAcc, d :: rest =>
    if 64 ≤ cardsAcc.length then some cardsAcc
    else if d + sk = 0 then none
    else if (d + sk)⁻¹ ∈ prfs then shuffleLoop sk prfs cardsAcc rest
    else shuffleLoop sk ((d + sk)⁻¹ :: prfs) (cardsAcc ++ [d]) rest

/-- `shuffle_deck`: first the 12 fixed cards `ω⁵²,…,ω⁶³` are pushed and
    their PRF values recorded; then cards are drawn through `ran_64` until
    64 distinct PRF values are seen. -/
def shuffleDeck (sk ω : F) (draws : List F) : Option (List F) :=
  if ∃ i ∈ List.range 12, sk + ω ^ (52 + i) = 0 then none
  else shuffleLoop sk
    ((List.range 12).map (fun i => (sk + ω ^ (52 + i))⁻¹))
    ((List.range 12).map (fun i => ω ^ (52 + i))) draws

lemma shuffleLoop_spec (sk : F) :
    ∀ (draws prfs cardsAcc out : List F),
      cardsAcc.length ≤ 64 →
      (∀ c ∈ cardsAcc, sk + c ≠ 0 ∧ (sk + c)⁻¹ ∈ prfs) →
      cardsAcc.Pairwise (fun a b => a ≠ b) →
      shuffleLoop sk prfs cardsAcc draws = some out →
      out.length = 64 ∧ out.Pairwise (fun a b => a ≠ b) ∧
        ∃ acc, out = cardsAcc ++ acc ∧ ∀ a ∈ acc, a ∈ draws := by
  intro draws
  induction draws with
  | nil =>
    intro prfs cardsAcc out hlen hinv hpw hrun
    unfold shuffleLoop at hrun
    by_cases h64c : 64 ≤ cardsAcc.length
    · rw [if_pos h64c] at hrun
      cases hrun
      exact ⟨by omega, hpw, [], by simp, by simp⟩
    · rw [if_neg h64c] at hrun
      cases hrun
  | cons d rest ih =>
    intro prfs cardsAcc out hlen hinv hpw hrun
    unfold shuffleLoop at hrun
    by_cases h64c : 64 ≤ cardsAcc.length
    · rw [if_pos h64c] at hrun
      cases hrun
      exact ⟨by omega, hpw, [], by simp, by simp⟩
    · rw [if_neg h64c] at hrun
      by_cases hz : d + sk = 0
      · rw [if_pos hz] at hrun
        cases hrun
      · rw [if_neg hz] at hrun
        by_cases hmem : (d + sk)⁻¹ ∈ prfs
        · rw [if_pos hmem] at hrun
          rcases ih prfs cardsAcc out hlen hinv hpw hrun with
            ⟨hl, hpw', acc, happ, hsub⟩
          exact ⟨hl, hpw', acc, happ,
            fun a ha => List.mem_cons_of_mem _ (hsub a ha)⟩
        · rw [if_neg hmem] at hrun
          have hz' : sk + d ≠ 0 := by
            rw [add_comm]
            exact hz
          have hinv' : ∀ c ∈ cardsAcc ++ [d],
              sk + c ≠ 0 ∧ (sk + c)⁻¹ ∈ (d + sk)⁻¹ :: prfs := by
            intro c hc
            rcases List.mem_append.mp hc with hc0 | hcd
            · rcases hinv c hc0 with ⟨hcz, hcm⟩
              exact ⟨hcz, List.mem_cons_of_mem _ hcm⟩
            · have : c = d := by simpa using hcd
              subst this
              refine ⟨hz', ?_⟩
              rw [add_comm sk c]
              exact List.mem_cons_self _ _
          have hpw' : (cardsAcc ++ [d]).Pairwise (fun a b => a ≠ b) := by
            rw [List.pairwise_append]
            refine ⟨hpw, by simp, ?_⟩
            intro a ha b hb
            have hbd : b = d := by simpa using hb
            subst hbd
            intro hab
            subst hab
            rcases hinv a ha with ⟨_, hm⟩
            rw [add_comm sk a] at hm
            exact hmem hm
          rcases ih ((d + sk)⁻¹ :: prfs) (cardsAcc ++ [d]) out
            (by simp; omega) hinv' hpw' hrun with ⟨hl, hpw'', acc, happ, hsub⟩
          refine ⟨hl, hpw'', d :: acc, ?_, ?_⟩
          · rw [happ, List.append_assoc]
            rfl
          · intro a ha
            rcases List.mem_cons.mp ha with rfl | ha'
            · exact List.mem_cons_self _ _
            · exact List.mem_cons_of_mem _ (hsub a ha')

/-- C4: whenever `shuffle_deck` terminates it returns exactly 64 cards,
    pairwise distinct, all members of the order-64 subgroup H; the first 12
    pushed are the fixed `ω⁵²,…,ω⁶³`, and the rest come from the `ran_64`
    stream (kept only when the revealed PRF value was unseen, which the
    distinctness part reflects). -/
theorem c4_shuffle_invariant (sk ω : F) (h : primRoot64 ω) (draws : List F)
    (hdr : ∀ d ∈ draws, ∃ k, k < 64 ∧ d = ω ^ k) (cards : List F)
    (hrun : shuffleDeck sk ω draws = some cards) :
    cards.length = 64 ∧
    cards.Pairwise (fun a b => a ≠ b) ∧
    (∀ c ∈ cards, ∃ k, k < 64 ∧ c = ω ^ k) ∧
    cards.take 12 = (List.range 12).map (fun i => ω ^ (52 + i)) := by
  unfold shuffleDeck at hrun
  by_cases hg : ∃ i ∈ List.range 12, sk + ω ^ (52 + i) = 0
  · rw [if_pos hg] at hrun
    cases hrun
  · rw [if_neg hg] at hrun
    push_neg at hg
    have hlen0 : ((List.range 12).map (fun i => ω ^ (52 + i))).length = 12 := by
      simp
    have hinv0 : ∀ c ∈ (List.range 12).map (fun i => ω ^ (52 + i)),
        sk + c ≠ 0 ∧
          (sk + c)⁻¹ ∈ (List.range 12).map (fun i => (sk + ω ^ (52 + i))⁻¹) := by
      intro c hc
      rcases List.mem_map.mp hc with ⟨i, hi, rfl⟩
      exact ⟨hg i hi, List.mem_map.mpr ⟨i, hi, rfl⟩⟩
    have hpw0 : ((List.range 12).map (fun i => ω ^ (52 + i))).Pairwise
        (fun a b => a ≠ b) := by
      refine List.Nodup.map_on ?_ (List.nodup_range 12)
      intro i hi j hj he
      have hi' := List.mem_range.mp hi
      have hj' := List.mem_range.mp hj
      have := h.pow_inj (i := 52 + i) (j := 52 + j) (by omega) (by omega) he
      omega
    have hspec := shuffleLoop_spec sk draws _ _ cards (by omega) hinv0 hpw0 hrun
    rcases hspec with ⟨hl64, hpw, acc, happ, hsub⟩
    subst happ
    refine ⟨hl64, hpw, ?_, ?_⟩
    · intro c hc
      rcases List.mem_append.mp hc with hc0 | hca
      · rcases List.mem_map.mp hc0 with ⟨i, hi, rfl⟩
        exact ⟨52 + i, by
          have := List.mem_range.mp hi
          omega, rfl⟩
      · exact hdr c (hsub c hca)
    · exact List.take_left' hlen0

/-! ### The batched sigma proof (main.rs, `dist_sigma_proof` and
`local_verify_sigma_proof`) and IBE encryption proof (main.rs,
`encrypt_and_prove` and `local_verify_encryption_proof`)

Group elements are in exponent form; for the pairing `e(g₁^a, g₂^b)` the
exponent is `a·b`.  `main.rs` uses the placeholder hash-to-curve
`H(id) = g₁^id` (its `// TODO: fix this` block), so `e(H(id), pk) = id·pk`
in exponent form. -/

structure SigmaProof (F : Type) where
  a1 : F
  a2 : F
  a3 : F
  a4 : F
  x : F
  y : F
  deriving DecidableEq

/-- The verifier of the composite sigma statement: γ is the Fiat-Shamir hash
    of `a₁ … a₄`; each of the three equations is checked and the results
    conjoined. -/
def localVerifySigmaProof (c d_batch g c_1 e_batch c2_batch : F)
    (sigma : SigmaProof F) : Bool :=
  let gamma := fsHash1 [[sigma.a1], [sigma.a2], [sigma.a3], [sigma.a4]]
  let b1 := decide (c * sigma.x = d_batch * gamma + sigma.a1)
  let b2 := decide (g * sigma.y = c_1 * gamma + sigma.a2)
  let b3 := decide (e_batch * sigma.y + sigma.x
    = c2_batch * gamma + sigma.a4 + sigma.a3)
  b1 && b2 && b3

/-- C6: `local_verify_sigma_proof` accepts iff, with γ recomputed as
    `fs_hash(a₁,a₂,a₃,a₄)`, all three equations hold (in exponent form):
    S1 `c·x = d_batch·γ + a₁`, S2 `g·y = c₁·γ + a₂`,
    S3 `x + e_batch·y = c2_batch·γ + a₃ + a₄`. -/
theorem c6_sigma_verifier_iff (c d_batch g c_1 e_batch c2_batch : F)
    (sigma : SigmaProof F) :
    localVerifySigmaProof c d_batch g c_1 e_batch c2_batch sigma = true ↔
      (c * sigma.x
          = d_batch * fsHash1 [[sigma.a1], [sigma.a2], [sigma.a3], [sigma.a4]]
            + sigma.a1 ∧
       g * sigma.y
          = c_1 * fsHash1 [[sigma.a1], [sigma.a2], [sigma.a3], [sigma.a4]]
            + sigma.a2 ∧
       e_batch * sigma.y + sigma.x
          = c2_batch * fsHash1 [[sigma.a1], [sigma.a2], [sigma.a3], [sigma.a4]]
            + sigma.a4 + sigma.a3) := by
  unfold localVerifySigmaProof
  simp [Bool.and_eq_true, decide_eq_true_eq, and_assoc]

structure EncryptProof (F : Type) where
  pk : F
  ids : List F
  card_commitment : F
  masked_commitments : List F
  masked_evals : List F
  eval_proofs : List F
  ciphertexts : List (F × F)
  sigma_proof : Option (SigmaProof F)
  deriving DecidableEq

/-- Modelled from the spec: `EncryptProof::to_bytes` lives in the absent
    `common.rs`.  Spec 6 gives the wire order
    `pk ‖ 64×id ‖ card_commitment ‖ 64×d_i ‖ 64×v_i ‖ 64×π_i ‖ 64×(c1_i‖c2_i)`;
    element serialisation is canonical, hence injective, so a byte string is
    modelled as the list of serialised elements.  The `sigma_proof` field is
    not part of the hashed bytes: spec 4.G step 4 takes
    `s = fs_hash(proof_so_far, 64)` over the proof without the sigma proof
    and spec 4.G's verifier "recomputes s" from the finished proof — which is
    only possible if the serialisation used at these two call sites is
    independent of `sigma_proof`. -/
def toBytes (p : EncryptProof F) : List F :=
  p.pk :: (p.ids ++ p.card_commitment :: (p.masked_commitments ++
    p.masked_evals ++ p.eval_proofs ++
    p.ciphertexts.flatMap (fun c => [c.1, c.2])))

/-- The equal-c1 loop of the verifier: checks ciphertext components
    `i0, …, i0+n-1` against `c1`, returning `some false` at the first
    mismatch (the `return false` of the source), `none` on an
    out-of-bounds index (a Rust panic). -/
def eqC1Loop (cts : List (F × F)) (c1 : F) : ℕ → ℕ → Option Bool
  | _, 0 => some true
  | i, n + 1 =>
    match cts[i]? with
    | none => none
    | some c => if c.1 ≠ c1 then some false else eqC1Loop cts c1 (i + 1) n

/-- The 64 batching scalars the verifier recomputes:
    `s = fs_hash(proof.to_bytes(), 64)`. -/
def encSBytes (p : EncryptProof F) : List F := fsHash [toBytes p] 64

/-- `e_batch = Σᵢ sᵢ · e(H(id_i), pk)` (exponent form). -/
def encEBatchOf (p : EncryptProof F) : F :=
  ((List.range 64).map
    (fun i => p.ids.getD i 0 * p.pk * (encSBytes p).getD i 0)).sum

/-- `d_batch = Σᵢ sᵢ · d_i` (exponent form). -/
def encDBatchOf (p : EncryptProof F) : F :=
  ((List.range 64).map
    (fun i => p.masked_commitments.getD i 0 * (encSBytes p).getD i 0)).sum

/-- `c2_batch = Σᵢ c2_i` (exponent form). -/
def encC2BatchOf (p : EncryptProof F) : F :=
  ((List.range 64).map (fun i => (p.ciphertexts.getD i (0, 0)).2)).sum

/-- `local_verify_encryption_proof`.  `none` is a panic: indexing
    `ciphertexts[0]`, the equal-c1 loop over indices 1..63, the three
    batching loops over indices 0..63 of `ids`, `masked_commitments` and
    `ciphertexts`, and the `unwrap` of `sigma_proof`, in source order.
    Note the function performs no `kzg_check` and never reads
    `masked_evals` or `eval_proofs`. -/
def localVerifyEncryptionProof (p : EncryptProof F) : Option Bool :=
  (p.ciphertexts[0]?).bind fun ct0 =>
    (eqC1Loop p.ciphertexts ct0.1 1 63).bind fun eqc =>
      if eqc = false then some false
      else if p.ids.length < 64 then none
      else if p.masked_commitments.length < 64 then none
      else if p.ciphertexts.length < 64 then none
      else
        (p.sigma_proof).bind fun sigma =>
          some (localVerifySigmaProof p.card_commitment (encDBatchOf p) 1 ct0.1
            (encEBatchOf p) (encC2BatchOf p) sigma)

lemma get?_eq_some_getD {α : Type} (l : List α) (d : α) {i : ℕ}
    (h : i < l.length) : l[i]? = some (l.getD i d) := by
  rw [List.getElem?_eq_getElem h, List.getD_eq_getElem _ _ h]

lemma eqC1Loop_false (cts : List (F × F)) (c1 : F) :
    ∀ (n i0 : ℕ),
      (∃ j, i0 ≤ j ∧ j < i0 + n ∧ j < cts.length ∧ (cts.getD j (0, 0)).1 ≠ c1) →
      eqC1Loop cts c1 i0 n = some false := by
  intro n
  induction n with
  | zero =>
    intro i0 hex
    rcases hex with ⟨j, h1, h2, _, _⟩
    omega
  | succ n ih =>
    intro i0 hex
    rcases hex with ⟨j, hij, hlt, hjlen, hne⟩
    have hi0len : i0 < cts.length := by omega
    unfold eqC1Loop
    rw [get?_eq_some_getD cts (0, 0) hi0len]
    dsimp only
    by_cases hc : (cts.getD i0 (0, 0)).1 ≠ c1
    · rw [if_pos hc]
    · rw [if_neg hc]
      have hceq : (cts.getD i0 (0, 0)).1 = c1 := not_not.mp hc
      have hji0 : j ≠ i0 := by
        intro he
        subst he
        exact hne hceq
      exact ih (i0 + 1) ⟨j, by omega, by omega, hjlen, hne⟩

lemma eqC1Loop_ne_none (cts : List (F × F)) (c1 : F) :
    ∀ (n i0 : ℕ), i0 + n ≤ cts.length → eqC1Loop cts c1 i0 n ≠ none := by
  intro n
  induction n with
  | zero =>
    intro i0 _
    simp [eqC1Loop]
  | succ n ih =>
    intro i0 hlen
    unfold eqC1Loop
    rw [get?_eq_some_getD cts (0, 0) (by omega)]
    dsimp only
    by_cases hc : (cts.getD i0 (0, 0)).1 ≠ c1
    · rw [if_pos hc]
      simp
    · rw [if_neg hc]
      exact ih (i0 + 1) (by omega)

lemma eqC1Loop_true_length (cts : List (F × F)) (c1 : F) :
    ∀ (n i0 : ℕ), eqC1Loop cts c1 i0 n = some true →
      n = 0 ∨ i0 + n ≤ cts.length := by
  intro n
  induction n with
  | zero =>
    intro i0 _
    left
    rfl
  | succ n ih =>
    intro i0 hrun
    unfold eqC1Loop at hrun
    cases hc0 : cts[i0]? with
    | none =>
      rw [hc0] at hrun
      cases hrun
    | some c =>
      rw [hc0] at hrun
      dsimp only at hrun
      by_cases hc : c.1 ≠ c1
      · rw [if_pos hc] at hrun
        cases hrun
      · rw [if_neg hc] at hrun
        have hi0 : i0 < cts.length := by
          by_contra hge
          rw [List.getElem?_eq_none (by omega)] at hc0
          cases hc0
        rcases ih (i0 + 1) hrun with h0 | hle
        · right
          omega
        · right
          omega

/-- C8: a proof whose ciphertext list has some index `j ∈ 1..63` with
    `c1_j ≠ c1_0` is rejected: the verifier returns `false` (from the
    equal-c1 loop, before any other check). -/
theorem c8_equal_c1_reject (p : EncryptProof F) (j : ℕ) (h1 : 1 ≤ j)
    (h63 : j ≤ 63) (hjlen : j < p.ciphertexts.length)
    (hne : (p.ciphertexts.getD j (0, 0)).1 ≠ (p.ciphertexts.getD 0 (0, 0)).1) :
    localVerifyEncryptionProof p = some false := by
  have h0len : 0 < p.ciphertexts.length := by omega
  unfold localVerifyEncryptionProof
  rw [get?_eq_some_getD p.ciphertexts (0, 0) h0len, Option.some_bind,
    eqC1Loop_false p.ciphertexts _ 63 1 ⟨j, by omega, by omega, hjlen, hne⟩,
    Option.some_bind, if_pos rfl]

/-- If the verifier returns `some true` then the proof was well-formed. -/
lemma verifyEnc_true_wellformed (p : EncryptProof F)
    (hv : localVerifyEncryptionProof p = some true) :
    64 ≤ p.ciphertexts.length ∧ 64 ≤ p.ids.length ∧
    64 ≤ p.masked_commitments.length ∧ p.sigma_proof.isSome := by
  unfold localVerifyEncryptionProof at hv
  cases hc0 : p.ciphertexts[0]? with
  | none =>
    rw [hc0] at hv
    cases hv
  | some ct0 =>
    rw [hc0, Option.some_bind] at hv
    cases hq : eqC1Loop p.ciphertexts ct0.1 1 63 with
    | none =>
      rw [hq] at hv
      cases hv
    | some b =>
      rw [hq, Option.some_bind] at hv
      cases b with
      | false =>
        rw [if_pos rfl] at hv
        cases hv
      | true =>
        rw [if_neg (by simp)] at hv
        have hcts : 64 ≤ p.ciphertexts.length := by
          rcases eqC1Loop_true_length p.ciphertexts ct0.1 63 1 hq with h0 | hle
          · cases h0
          · omega
        by_cases hids : p.ids.length < 64
        · rw [if_pos hids] at hv
          cases hv
        · rw [if_neg hids] at hv
          by_cases hmc : p.masked_commitments.length < 64
          · rw [if_pos hmc] at hv
            cases hv
          · rw [if_neg hmc] at hv
            rw [if_neg (by omega)] at hv
            cases hs : p.sigma_proof with
            | none =>
              rw [hs] at hv
              cases hv
            | some sigma =>
              exact ⟨hcts, by omega, by omega, by simp [hs]⟩

/-- C9 (amended): with exactly 64 ciphertexts, ids and masked commitments
    and a present sigma proof, no panic branch is reachable; an ill-formed
    proof (fewer entries somewhere, or `sigma_proof = None`) either panics
    or returns `false` from the equal-c1 check — it never verifies. -/
theorem c9_wellformed_total (p : EncryptProof F) :
    (p.ciphertexts.length = 64 → p.ids.length = 64 →
      p.masked_commitments.length = 64 → p.sigma_proof.isSome →
      (localVerifyEncryptionProof p).isSome) ∧
    ((p.ciphertexts.length < 64 ∨ p.ids.length < 64 ∨
        p.masked_commitments.length < 64 ∨ p.sigma_proof = none) →
      localVerifyEncryptionProof p = none ∨
        localVerifyEncryptionProof p = some false) := by
  constructor
  · intro hcts hids hmc hsig
    unfold localVerifyEncryptionProof
    rw [get?_eq_some_getD p.ciphertexts (0, 0) (by omega), Option.some_bind]
    cases hq : eqC1Loop p.ciphertexts (p.ciphertexts.getD 0 (0, 0)).1 1 63 with
    | none =>
      exact absurd hq (eqC1Loop_ne_none p.ciphertexts _ 63 1 (by omega))
    | some b =>
      rw [Option.some_bind]
      cases b with
      | false => simp
      | true =>
        rw [if_neg (by simp), if_neg (by omega), if_neg (by omega),
          if_neg (by omega)]
        rcases Option.isSome_iff_exists.mp hsig with ⟨sigma, hs⟩
        rw [hs, Option.some_bind]
        rfl
  · intro hill
    cases hv : localVerifyEncryptionProof p with
    | none => exact Or.inl rfl
    | some b =>
      cases b with
      | false => exact Or.inr rfl
      | true =>
        exfalso
        rcases verifyEnc_true_wellformed p hv with ⟨h1, h2, h3, h4⟩
        rcases hill with h | h | h | h
        · omega
        · omega
        · omega
        · rw [h] at h4
          cases h4

/-! ### Honest prover `encrypt_and_prove` (main.rs)

Honest-evaluator model.  `zs` is the stream of the 64 `ran()` masks `z_i`,
`r` the shared encryption randomness, `z2` the sigma nonce, `ccom` the card
commitment (`perm_proof.f_com`).  `dist_ibe_encrypt` (absent `evaluator.rs`)
is modelled from the spec 4.D: `c1 = g^r`, `c2 = e(H(id), pk)^r · gₜ^card`,
with the same `H(id) = g₁^id` placeholder `main.rs` uses for `e_batch`. -/

def encMaskedCommitments (ccom : F) (zs : List F) : List F :=
  (List.range 64).map (fun i => ccom * zs.getD i 0)

def encMaskedEvals (cards zs : List F) : List F :=
  (List.range 64).map (fun i => zs.getD i 0 * cards.getD i 0)

/-- Per-position evaluation proofs: the plain KZG proof share of `f` at
    `ωⁱ`, scaled by `z_i` and summed across parties. -/
def encEvalProofs (τ ω : F) (cards zs : List F) : List F :=
  (List.range 64).map
    (fun i => evalL (qr (interp ω cards) (ω ^ i)).1 τ * zs.getD i 0)

def encCiphertexts (cards : List F) (r pk : F) (ids : List F) : List (F × F) :=
  (List.range 64).map (fun i => (r, ids.getD i 0 * pk * r + cards.getD i 0))

/-- The `tmp_proof` that `encrypt_and_prove` hashes: all components filled
    in, `sigma_proof = None`. -/
def encTmpProof (τ ω ccom : F) (cards zs : List F) (r pk : F)
    (ids : List F) : EncryptProof F :=
  { pk := pk
    ids := ids
    card_commitment := ccom
    masked_commitments := encMaskedCommitments ccom zs
    masked_evals := encMaskedEvals cards zs
    eval_proofs := encEvalProofs τ ω cards zs
    ciphertexts := encCiphertexts cards r pk ids
    sigma_proof := none }

/-- The prover's batching scalars: `s = fs_hash(tmp_proof.to_bytes(), 64)`. -/
def encS (τ ω ccom : F) (cards zs : List F) (r pk : F) (ids : List F) : List F :=
  fsHash [toBytes (encTmpProof τ ω ccom cards zs r pk ids)] 64

/-- `e_batch = Σᵢ sᵢ · e(H(id_i), pk)` as computed by the prover. -/
def encEBatch (pk : F) (ids s : List F) : F :=
  ((List.range 64).map (fun i => ids.getD i 0 * pk * s.getD i 0)).sum

/-- `dist_sigma_proof` for honest parties: commitments `a₁ = base₁^{z₂}`,
    `a₂ = base₂^{z₂}`, `a₃ = base₃^{z₂}`, `a₄ = gₜ^{z₂}`; challenge
    `γ = fs_hash(a₁,a₂,a₃,a₄)`; responses `y = γ·wit₂ + z₂` and
    `x = γ·Σᵢ linᵢ·wit₁ᵢ + z₂`. -/
def distSigmaProofOf (base1 base2 base3 : F) (wit1 : List F) (wit2 : F)
    (lin : List F) (z2 : F) : SigmaProof F :=
  { a1 := base1 * z2
    a2 := base2 * z2
    a3 := base3 * z2
    a4 := z2
    x := fsHash1 [[base1 * z2], [base2 * z2], [base3 * z2], [z2]]
        * ((List.range 64).map (fun i => wit1.getD i 0 * lin.getD i 0)).sum + z2
    y := fsHash1 [[base1 * z2], [base2 * z2], [base3 * z2], [z2]] * wit2 + z2 }

/-- `encrypt_and_prove`: the final proof, identical to the `tmp_proof`
    except that `sigma_proof` is filled with the batched sigma proof over
    witnesses `(z_i)` and `r` with bases `card_commitment`, `g`, `e_batch`. -/
def encryptAndProve (τ ω ccom : F) (cards zs : List F) (r pk : F)
    (ids : List F) (z2 : F) : EncryptProof F :=
  { pk := pk
    ids := ids
    card_commitment := ccom
    masked_commitments := encMaskedCommitments ccom zs
    masked_evals := encMaskedEvals cards zs
    eval_proofs := encEvalProofs τ ω cards zs
    ciphertexts := encCiphertexts cards r pk ids
    sigma_proof := some (distSigmaProofOf ccom 1
      (encEBatch pk ids (encS τ ω ccom cards zs r pk ids)) zs r
      (encS τ ω ccom cards zs r pk ids) z2) }

/-- C7: the batching scalars `s` that `local_verify_encryption_proof`
    recomputes from the serialized final proof (sigma_proof = Some) equal
    the scalars that `encrypt_and_prove` derived from the serialized
    proof-so-far (sigma_proof = None). -/
theorem c7_batching_scalars_agree (τ ω ccom r pk z2 : F)
    (cards zs ids : List F) :
    encSBytes (encryptAndProve τ ω ccom cards zs r pk ids z2)
      = encS τ ω ccom cards zs r pk ids := by
  unfold encSBytes encS
  have hb : toBytes (encryptAndProve τ ω ccom cards zs r pk ids z2)
      = toBytes (encTmpProof τ ω ccom cards zs r pk ids) := by
    simp only [toBytes, encryptAndProve, encTmpProof]
  rw [hb]

/-! ### The address book (main.rs, `parse_addr_book_from_json`)

Rust `Vec::<String>::sort()` sorts by byte order of the UTF-8 strings; the
peer ids are ASCII, so byte order coincides with codepoint order, modelled
by `lexLt` on the character lists.  The stable insertion sort below agrees
with any sort on these pairwise-distinct keys.  The `HashMap` output is
modelled by its entry list (the claims quantify over entries only). -/

structure Pok3rPeer where
  peer_id : String
  node_id : ℕ
  deriving DecidableEq

def lexLt : List Char → List Char → Bool
  | [], [] => false
  | [], _ :: _ => true
  | _ :: _, [] => false
  | a :: l, b :: m => if a < b then true else if b < a then false else lexLt l m

def sortInsert (x : String) : List String → List String
  | [] => [x]
  | y :: l => if lexLt x.data y.data then x :: y :: l else y :: sortInsert x l

def sortPeers : List String → List String
  | [] => []
  | x :: l => sortInsert x (sortPeers l)

/-- The fixed three-peer `addr_book` of the JSON config in `main.rs`. -/
def addrBookConfig : List String :=
  ["12D3KooWPjceQrSwdWXPyLLeABRXmuqt69Rg3sBYbU1Nft9HyQ6X",
   "12D3KooWH3uVF6wv47WnArKHk5p6cvgCJEb74UTmxztmQDc298L3",
   "12D3KooWQYhTNQdmr3ArTeUHRYzFg94BKyTkoWBDWez9kSCVe2Xo"]

/-- The node-id counter loop over the sorted peers. -/
def withIds : List String → ℕ → List Pok3rPeer
  | [], _ => []
  | p :: rest, c => { peer_id := p, node_id := c } :: withIds rest (c + 1)

def parseAddrBookFromJson : List Pok3rPeer :=
  withIds (sortPeers addrBookConfig) 0

/-- C10: node ids are the consecutive integers 0,1,2 assigned in
    lexicographically sorted order of the identity strings: for any two
    peers, one's identity sorts before the other's iff its node id is
    smaller. -/
theorem c10_addr_book_sorted :
    (∀ p ∈ parseAddrBookFromJson, ∀ q ∈ parseAddrBookFromJson,
      (lexLt p.peer_id.data q.peer_id.data = true ↔ p.node_id < q.node_id)) ∧
    parseAddrBookFromJson.map Pok3rPeer.node_id = [0, 1, 2] := by
  decide

/-! ### Concrete instantiation

The curve configuration lives in the absent `common.rs`; the spec only
requires a prime scalar field with a multiplicative subgroup of order 64.
`ZMod 193` is such a field (193 = 3·64 + 1); `ωp = 125` has order exactly
64 and `τp = 5` stands for the SRS trapdoor.  All claims are settled
parametrically above; this section instantiates them on concrete runs. -/

abbrev Fp : Type := ZMod 193

instance : Fact (Nat.Prime 193) := ⟨by norm_num⟩

def ωp : Fp := 125

def τp : Fp := 5

lemma primRootP : primRoot64 ωp := by
  constructor
  · decide
  · decide

lemma inv64p : (64 : Fp)⁻¹ = 190 := inv_eq_of_mul_eq_one_right (by decide)

lemma permGamma1_val : permGamma1 τp ωp (rootsList ωp) = 95 := by
  unfold permGamma1 permVCom permFCom permVList permFList interp
  simp only [inv64p]
  decide

def rsOnes : List Fp := List.replicate 65 1

lemma permH_ne_zero_val : ∀ i < 64, permH τp ωp (rootsList ωp) i ≠ 0 := by
  intro i hi
  rw [permH_eq τp ωp _ hi, permGamma1_val]
  have hall : ∀ k < 64, (ωp : Fp) ^ k + 95 ≠ 0 := by decide
  exact hall i hi

theorem c2_perm_completeness_witness :
    (rootsList ωp).Perm (rootsList ωp) ∧
    (computePermutationArgument τp ωp (rootsList ωp) rsOnes
        = some (permProofOf τp ωp (rootsList ωp) rsOnes) ∧
      verifyPermutationArgument τp ωp (permProofOf τp ωp (rootsList ωp) rsOnes)
        = true) :=
  ⟨List.Perm.refl _,
    c2_perm_completeness τp ωp primRootP (by decide) (rootsList ωp) rsOnes
      (List.Perm.refl _) (by decide) (by decide) permH_ne_zero_val⟩

/-- C5: the card-drawing loop of `shuffle_deck` has no iteration cap: with a
    PRF stream that keeps producing the already-seen card ω⁵², the loop
    keeps consuming randomness forever (for every bound n it is still
    running after n iterations), never aborting with a diagnostic.  (The
    source has only `// TODO` comments where the spec demands a hard cap.) -/
theorem c5_shuffle_no_cap :
    ∀ n : ℕ, shuffleDeck (0 : Fp) ωp (List.replicate n (ωp ^ 52)) = none := by
  have hz : (ωp : Fp) ^ 52 + 0 ≠ 0 := by decide
  have hmem : ((ωp : Fp) ^ 52 + 0)⁻¹
      ∈ (List.range 12).map (fun i => ((0 : Fp) + ωp ^ (52 + i))⁻¹) := by
    refine List.mem_map.mpr ⟨0, by decide, ?_⟩
    norm_num
  have hlen : ((List.range 12).map (fun i => (ωp : Fp) ^ (52 + i))).length < 64 := by
    simp
  have hstuck : ∀ n : ℕ,
      shuffleLoop (0 : Fp)
        ((List.range 12).map (fun i => ((0 : Fp) + ωp ^ (52 + i))⁻¹))
        ((List.range 12).map (fun i => (ωp : Fp) ^ (52 + i)))
        (List.replicate n (ωp ^ 52)) = none := by
    intro n
    induction n with
    | zero =>
      rw [List.replicate_zero]
      unfold shuffleLoop
      rw [if_neg (by simp)]
    | succ n ih =>
      rw [List.replicate_succ]
      unfold shuffleLoop
      rw [if_neg (by simp), if_neg hz, if_pos hmem]
      exact ih
  intro n
  unfold shuffleDeck
  rw [if_neg (by decide)]
  exact hstuck n

/-- Completeness of the shuffle loop: when the stream provides exactly the
    missing distinct cards, every draw is accepted. -/
lemma shuffleLoop_complete (sk : F) :
    ∀ (draws prfs cardsAcc : List F),
      cardsAcc.length + draws.length = 64 →
      (∀ c ∈ cardsAcc, sk + c ≠ 0 ∧ (sk + c)⁻¹ ∈ prfs) →
      (∀ y ∈ prfs, ∃ c ∈ cardsAcc, y = (sk + c)⁻¹) →
      (∀ d ∈ draws, sk + d ≠ 0) →
      (cardsAcc ++ draws).Pairwise (fun a b => a ≠ b) →
      shuffleLoop sk prfs cardsAcc draws = some (cardsAcc ++ draws) := by
  intro draws
  induction draws with
  | nil =>
    intro prfs cardsAcc h64 _ _ _ _
    unfold shuffleLoop
    rw [if_pos (by simp at h64; omega)]
    simp
  | cons d rest ih =>
    intro prfs cardsAcc h64 hinv hprfs hdz hpw
    have hlen : cardsAcc.length < 64 := by
      simp only [List.length_cons] at h64
      omega
    have hdz0 : sk + d ≠ 0 := hdz d (List.mem_cons_self _ _)
    have hdz0' : d + sk ≠ 0 := by
      rw [add_comm]
      exact hdz0
    have hnotin : ∀ a ∈ cardsAcc, a ≠ d := by
      rcases List.pairwise_append.mp hpw with ⟨_, _, hcross⟩
      intro a ha
      exact hcross a ha d (List.mem_cons_self _ _)
    have hnot : (d + sk)⁻¹ ∉ prfs := by
      intro hm
      rcases hprfs _ hm with ⟨c, hc, he⟩
      have heq : sk + d = sk + c := by
        apply inv_injective
        rw [← he, add_comm]
      have hdc : d = c := add_left_cancel heq
      exact hnotin c hc hdc.symm
    unfold shuffleLoop
    rw [if_neg (by omega), if_neg hdz0', if_neg hnot]
    have happ : (cardsAcc ++ [d]) ++ rest = cardsAcc ++ d :: rest := by
      rw [List.append_assoc]
      rfl
    have hres := ih ((d + sk)⁻¹ :: prfs) (cardsAcc ++ [d])
      (by
        simp only [List.length_append, List.length_cons, List.length_nil] at h64 ⊢
        omega)
      (by
        intro c hc
        rcases List.mem_append.mp hc with hc0 | hcd
        · rcases hinv c hc0 with ⟨h1, h2⟩
          exact ⟨h1, List.mem_cons_of_mem _ h2⟩
        · have hcd' : c = d := by simpa using hcd
          subst hcd'
          refine ⟨hdz0, ?_⟩
          rw [add_comm sk c]
          exact List.mem_cons_self _ _)
      (by
        intro y hy
        rcases List.mem_cons.mp hy with rfl | hy'
        · exact ⟨d, List.mem_append_right _ (List.mem_cons_self _ _),
            by rw [add_comm]⟩
        · rcases hprfs y hy' with ⟨c, hc, he⟩
          exact ⟨c, List.mem_append_left _ hc, he⟩)
      (fun x hx => hdz x (List.mem_cons_of_mem _ hx))
      (by rw [happ]; exact hpw)
    rw [hres, happ]

def drawsW : List Fp := (List.range 52).map (fun k => (ωp : Fp) ^ k)

def cardsW : List Fp :=
  ((List.range 12).map (fun i => (ωp : Fp) ^ (52 + i))) ++ drawsW

lemma shuffle_run_val : shuffleDeck (0 : Fp) ωp drawsW = some cardsW := by
  unfold shuffleDeck cardsW
  rw [if_neg (by decide)]
  apply shuffleLoop_complete
  · simp [drawsW]
  · intro c hc
    rcases List.mem_map.mp hc with ⟨i, hi, rfl⟩
    have hall : ∀ i ∈ List.range 12, (0 : Fp) + ωp ^ (52 + i) ≠ 0 := by decide
    exact ⟨hall i hi, List.mem_map.mpr ⟨i, hi, rfl⟩⟩
  · intro y hy
    rcases List.mem_map.mp hy with ⟨i, hi, rfl⟩
    exact ⟨ωp ^ (52 + i), List.mem_map.mpr ⟨i, hi, rfl⟩, rfl⟩
  · have hall : ∀ d ∈ drawsW, (0 : Fp) + d ≠ 0 := by decide
    exact hall
  · decide

/-- C4 witness: a terminating run that draws the 52 remaining roots. -/
theorem c4_shuffle_invariant_witness :
    shuffleDeck (0 : Fp) ωp drawsW = some cardsW ∧
    (cardsW.length = 64 ∧ cardsW.Pairwise (fun a b => a ≠ b) ∧
      (∀ c ∈ cardsW, ∃ k, k < 64 ∧ c = ωp ^ k) ∧
      cardsW.take 12 = (List.range 12).map (fun i => (ωp : Fp) ^ (52 + i))) := by
  refine ⟨shuffle_run_val, c4_shuffle_invariant 0 ωp primRootP drawsW ?_ cardsW
    shuffle_run_val⟩
  intro d hd
  rcases List.mem_map.mp hd with ⟨k, hk, rfl⟩
  exact ⟨k, by
    have := List.mem_range.mp hk
    omega, rfl⟩

/-- A proof with all group elements zero, `masked_evals[0] = 1`, and a
    satisfying sigma response: every check the verifier performs passes,
    but the position-0 KZG check is false. -/
def P0 : EncryptProof Fp :=
  { pk := 0
    ids := List.replicate 64 0
    card_commitment := 0
    masked_commitments := List.replicate 64 0
    masked_evals := 1 :: List.replicate 63 0
    eval_proofs := List.replicate 64 0
    ciphertexts := List.replicate 64 (0, 0)
    sigma_proof := some { a1 := 0, a2 := 0, a3 := 5, a4 := 0, x := 5, y := 0 } }

/-- C1: `local_verify_encryption_proof` accepts `P0` (equal-c1 and the
    sigma checks pass) although the per-position check
    `kzg_check(d_0, ω⁰, v_0, π_0)` is false: the function performs no
    per-position kzg checks at all (the `eval_proofs` and `masked_evals`
    fields are never read), contradicting the specified behaviour. -/
theorem c1_missing_kzg_checks :
    localVerifyEncryptionProof P0 = some true ∧
    kzgCheck τp (P0.masked_commitments.getD 0 0) (ωp ^ 0)
      (P0.masked_evals.getD 0 0) (P0.eval_proofs.getD 0 0) = false := by
  constructor
  · decide
  · decide

/-- A well-formed proof except that ciphertext 1 has a different `c1`. -/
def P1 : EncryptProof Fp :=
  { pk := 0
    ids := List.replicate 64 0
    card_commitment := 0
    masked_commitments := List.replicate 64 0
    masked_evals := List.replicate 64 0
    eval_proofs := List.replicate 64 0
    ciphertexts := (0, 0) :: (1, 0) :: List.replicate 62 (0, 0)
    sigma_proof := some { a1 := 0, a2 := 0, a3 := 5, a4 := 0, x := 5, y := 0 } }

theorem c8_equal_c1_reject_witness :
    (P1.ciphertexts.getD 1 (0, 0)).1 ≠ (P1.ciphertexts.getD 0 (0, 0)).1 ∧
    localVerifyEncryptionProof P1 = some false :=
  ⟨by decide, c8_equal_c1_reject P1 1 (by omega) (by omega) (by decide)
    (by decide)⟩

/-- Like `P1` but with `sigma_proof = None`. -/
def P2 : EncryptProof Fp :=
  { pk := 0
    ids := List.replicate 64 0
    card_commitment := 0
    masked_commitments := List.replicate 64 0
    masked_evals := List.replicate 64 0
    eval_proofs := List.replicate 64 0
    ciphertexts := (0, 0) :: (1, 0) :: List.replicate 62 (0, 0)
    sigma_proof := none }

/-- C9 counterexample: `P2` has `sigma_proof = None`, yet the verifier
    returns `false` rather than panicking — the equal-c1 early return fires
    before the `unwrap`, refuting "a proof with fewer entries or
    sigma_proof = None makes the function panic instead of returning
    false". -/
theorem c9_counterexample :
    P2.sigma_proof = none ∧ localVerifyEncryptionProof P2 = some false := by
  constructor
  · rfl
  · decide

theorem c9_wellformed_total_witness :
    (localVerifyEncryptionProof P0).isSome = true ∧
    (localVerifyEncryptionProof P2 = none ∨
      localVerifyEncryptionProof P2 = some false) :=
  ⟨(c9_wellformed_total P0).1 (by decide) (by decide) (by decide) rfl,
   (c9_wellformed_total P2).2 (Or.inr (Or.inr (Or.inr rfl)))⟩

end Pok3r
